import Mathlib

set_option linter.unusedSectionVars false

/-!
# Verification of `ThreadSafeCache` (LRU cache), `src/include/thread_safe_cache.hpp`

A shallow embedding of the C++ class `concurrency::ThreadSafeCache<Key, Value>`.
The C++ object holds

* `head_`, `tail_` : `shared_ptr<Node>` — the ends of a doubly linked chain;
* `cache_` : `unordered_map<Key, shared_ptr<Node>>` — the index;
* `capacity_` : `size_t`.

We model the `shared_ptr` graph as an explicit heap: a finite association
list from node ids (`Nat`) to `Node` records, where a C++ pointer becomes
`Option Nat` (`nullptr` = `none`).  Fresh nodes are allocated with the
counter `nextId`.  The field updates of each member function are threaded
through the state in the same order as the C++ statements.

Two ghost fields are added for specification purposes only:
* every node carries a `stamp` and the state a `clock`, recording when the
  node's key was last touched by `get`/`put` (used to state the recency
  invariant I5);
* `crashed` is set when execution reaches a point where the C++ code would
  fail one of its own `assert`s or dereference a null pointer (undefined
  behaviour); it is never read by the operations themselves.
-/

namespace ThreadSafeCache

/-- One cached entry, C++ `struct Node`: key, value and the two chain
pointers (`prev_` toward the head, `next_` toward the tail).  `stamp` is
ghost instrumentation (last-touch time), not present in the C++ struct. -/
structure Node (K V : Type) where
  key_ : K
  value_ : V
  prev_ : Option Nat
  next_ : Option Nat
  stamp : Nat
deriving Repr, DecidableEq

/-- The whole cache state: the C++ data members plus the allocator counter
`nextId` and the ghost `clock`/`crashed` fields. -/
structure CacheState (K V : Type) where
  capacity_ : Nat
  head_ : Option Nat
  tail_ : Option Nat
  cache_ : List (K × Nat)
  heap : List (Nat × Node K V)
  nextId : Nat
  clock : Nat
  crashed : Bool
deriving Repr, DecidableEq

variable {K V : Type} [DecidableEq K]

/-- Heap lookup: dereference a node id. -/
def hfind : List (Nat × Node K V) → Nat → Option (Node K V)
  | [], _ => none
  | p :: rest, i => if p.1 = i then some p.2 else hfind rest i

/-- Heap update: apply `f` to the node at id `i` (no-op when the id is
dangling, which never happens on well-formed states). -/
def hupd : List (Nat × Node K V) → Nat → (Node K V → Node K V) → List (Nat × Node K V)
  | [], _, _ => []
  | p :: rest, i, f => if p.1 = i then (i, f p.2) :: rest else p :: hupd rest i f

/-- `unordered_map::find` on the index (keys are unique on well-formed
states, so first-match lookup is the map lookup). -/
def klookup : List (K × Nat) → K → Option Nat
  | [], _ => none
  | p :: rest, k => if p.1 = k then some p.2 else klookup rest k

/-- `unordered_map::erase` on the index. -/
def kerase : List (K × Nat) → K → List (K × Nat)
  | [], _ => []
  | p :: rest, k => if p.1 = k then rest else p :: kerase rest k

/-- Write a node's fields through its id (a C++ `node->field = ...`). -/
def updNode (st : CacheState K V) (i : Nat) (f : Node K V → Node K V) : CacheState K V :=
  { st with heap := hupd st.heap i f }

/-- Read `node->next_` through an id (`none` on a dangling id). -/
def nextOf (st : CacheState K V) (i : Nat) : Option Nat :=
  match hfind st.heap i with
  | some nd => nd.next_
  | none => none

/-- Read `node->prev_` through an id. -/
def prevOf (st : CacheState K V) (i : Nat) : Option Nat :=
  match hfind st.heap i with
  | some nd => nd.prev_
  | none => none

/-- Read `node->key_` through an id. -/
def keyOf (st : CacheState K V) (i : Nat) : Option K :=
  match hfind st.heap i with
  | some nd => some nd.key_
  | none => none

/-- Read `node->value_` through an id. -/
def valOf (st : CacheState K V) (i : Nat) : Option V :=
  match hfind st.heap i with
  | some nd => some nd.value_
  | none => none

/-- Read the ghost last-touch stamp through an id. -/
def stampOf (st : CacheState K V) (i : Nat) : Nat :=
  match hfind st.heap i with
  | some nd => nd.stamp
  | none => 0

/-- The constructor `ThreadSafeCache(size_t capacity)`: it stores the
capacity unchecked; everything else starts empty. -/
def init (capacity : Nat) : CacheState K V :=
  { capacity_ := capacity, head_ := none, tail_ := none, cache_ := [],
    heap := [], nextId := 0, clock := 0, crashed := false }

/-- Ghost: record that node `i` was touched now (sets its stamp to the
current clock and advances the clock).  Inserted at each `get` hit and each
`put`, where the C++ code accesses the key. -/
def touch (st : CacheState K V) (i : Nat) : CacheState K V :=
  let st' := updNode st i (fun nd => { nd with stamp := st.clock })
  { st' with clock := st.clock + 1 }

/-- `move_to_front(node)`: the private relink helper, statement by
statement:
```
if (node == head_) return;
if (node == tail_) tail_ = node->prev_;
auto prev = node->prev_; auto next = node->next_;
if (prev) prev->next_ = next;
if (next) next->prev_ = prev;
node->prev_ = nullptr; node->next_ = head_;
if (head_) head_->prev_ = node;
head_ = node;
``` -/
def move_to_front (st : CacheState K V) (i : Nat) : CacheState K V :=
  if st.head_ = some i then st
  else
    let st1 := if st.tail_ = some i then { st with tail_ := prevOf st i } else st
    let prev := prevOf st i
    let next := nextOf st i
    let st2 := match prev with
               | some p => updNode st1 p (fun nd => { nd with next_ := next })
               | none => st1
    let st3 := match next with
               | some n => updNode st2 n (fun nd => { nd with prev_ := prev })
               | none => st2
    let st4 := updNode st3 i (fun nd => { nd with prev_ := none, next_ := st3.head_ })
    let st5 := match st4.head_ with
               | some h => updNode st4 h (fun nd => { nd with prev_ := some i })
               | none => st4
    { st5 with head_ := some i }

/-- `get(key)`: index lookup; on a hit, copy the value out, relink the node
at the head, return the value; on a miss return `none` untouched. -/
def get (st : CacheState K V) (key : K) : Option V × CacheState K V :=
  match klookup st.cache_ key with
  | none => (none, st)
  | some i =>
    match hfind st.heap i with
    | none => (none, { st with crashed := true })
    | some nd =>
      let st' := touch st i
      (some nd.value_, move_to_front st' i)

/-- The new-key block of `put`: allocate a node (`make_shared`), add the
index entry, then
```
node->next_ = head_;
if (head_) head_->prev_ = node;
else tail_ = node;
head_ = node;
``` -/
def pushFront (st : CacheState K V) (key : K) (value : V) : CacheState K V :=
  let i := st.nextId
  let nd : Node K V :=
    { key_ := key, value_ := value, prev_ := none, next_ := none, stamp := st.clock }
  let sta := { st with heap := (i, nd) :: st.heap, cache_ := (key, i) :: st.cache_,
                       nextId := i + 1, clock := st.clock + 1 }
  let stb := updNode sta i (fun nd => { nd with next_ := sta.head_ })
  let stc := match stb.head_ with
             | some h => updNode stb h (fun nd => { nd with prev_ := some i })
             | none => { stb with tail_ := some i }
  { stc with head_ := some i }

/-- The eviction block at the end of `put`:
```
if (cache_.size() > capacity_) {
  assert(tail_);
  auto newtail = tail_->prev_;
  assert(newtail);
  newtail->next_ = nullptr;
  cache_.erase(tail_->key_);
  tail_ = newtail;
}
```
The `crashed` results mark the paths where the C++ asserts fail (reached
for example when the capacity is `0`, where the single chain node has no
predecessor and `newtail` is null). -/
def evictIfOver (st : CacheState K V) : CacheState K V :=
  if st.cache_.length > st.capacity_ then
    match st.tail_ with
    | none => { st with crashed := true }
    | some t =>
      match hfind st.heap t with
      | none => { st with crashed := true }
      | some tnd =>
        match tnd.prev_ with
        | none => { st with crashed := true }
        | some nt =>
          let st2 := updNode st nt (fun nd => { nd with next_ := none })
          let st3 := { st2 with cache_ := kerase st2.cache_ tnd.key_ }
          { st3 with tail_ := some nt }
  else st

/-- `put(key, value)`: overwrite-and-relink when the key exists, otherwise
allocate a node, push it at the head and add the index entry; then, if the
index has outgrown the capacity, evict the tail. -/
def put (st : CacheState K V) (key : K) (value : V) : CacheState K V :=
  let st1 :=
    match klookup st.cache_ key with
    | some i =>
      let sta := updNode st i (fun nd => { nd with value_ := value })
      let stb := touch sta i
      move_to_front stb i
    | none => pushFront st key value
  evictIfOver st1

/-- `remove(key)`: unlink the node from any chain position, patch the ends,
erase the index entry; `false` untouched on an unknown key. -/
def remove (st : CacheState K V) (key : K) : Bool × CacheState K V :=
  match klookup st.cache_ key with
  | none => (false, st)
  | some i =>
    match hfind st.heap i with
    | none => (false, { st with crashed := true })
    | some nd =>
      let prev := nd.prev_
      let next := nd.next_
      let st1 := updNode st i (fun n => { n with prev_ := none, next_ := none })
      let st2 := match prev with
                 | some p => updNode st1 p (fun n => { n with next_ := next })
                 | none => st1
      let st3 := match next with
                 | some n2 => updNode st2 n2 (fun n => { n with prev_ := prev })
                 | none => st2
      let st4 := if st3.tail_ = some i then { st3 with tail_ := prev } else st3
      let st5 := if st4.head_ = some i then { st4 with head_ := next } else st4
      (true, { st5 with cache_ := kerase st5.cache_ nd.key_ })

/-- Null out a node's chain pointers, `head_->prev_ = nullptr; head_->next_
= nullptr;` in `clear`. -/
def clearPtrs (nd : Node K V) : Node K V :=
  { nd with prev_ := none, next_ := none }

/-- The body of `clear`'s `while (head_)` loop, with fuel (the loop count is
bounded by the chain length on well-formed states; exhausted fuel marks
non-termination, which never happens on well-formed states). -/
def clearLoop : Nat → CacheState K V → CacheState K V
  | 0, st =>
    match st.head_ with
    | none => st
    | some _ => { st with crashed := true }
  | fuel + 1, st =>
    match st.head_ with
    | none => st
    | some h =>
      let next := nextOf st h
      let st1 := updNode st h clearPtrs
      clearLoop fuel { st1 with head_ := next }

/-- `clear()`: unlink every chain node, then `tail_ = nullptr` and
`cache_.clear()`. -/
def clear (st : CacheState K V) : CacheState K V :=
  let st1 := clearLoop st.heap.length st
  { st1 with tail_ := none, cache_ := [] }

/-- `contains(key)`: a const query on the index. -/
def contains (st : CacheState K V) (key : K) : Bool :=
  (klookup st.cache_ key).isSome

/-- `size()`: a const query, `cache_.size()`. -/
def size (st : CacheState K V) : Nat :=
  st.cache_.length

/-- The public operations, for forming call sequences. -/
inductive Op (K V : Type) where
  | getOp (k : K)
  | putOp (k : K) (v : V)
  | removeOp (k : K)
  | clearOp
  | containsOp (k : K)
  | sizeOp
deriving Repr, DecidableEq

/-- Run one public operation for its state effect. -/
def step (st : CacheState K V) : Op K V → CacheState K V
  | Op.getOp k => (ThreadSafeCache.get st k).2
  | Op.putOp k v => put st k v
  | Op.removeOp k => (remove st k).2
  | Op.clearOp => clear st
  | Op.containsOp _ => st
  | Op.sizeOp => st

/-- Run a finite single-threaded call sequence. -/
def run (st : CacheState K V) (ops : List (Op K V)) : CacheState K V :=
  ops.foldl step st

/-- `a` and `b` are chain-adjacent: `a`'s `next_` points to `b` and `b`'s
`prev_` points back to `a`. -/
def Adj (st : CacheState K V) (a b : Nat) : Prop :=
  nextOf st a = some b ∧ prevOf st b = some a

/-- A property of the value under an optional reference; trivial on null. -/
def optAll {α : Type} (o : Option α) (P : α → Prop) : Prop :=
  match o with
  | none => True
  | some a => P a

instance {α : Type} (o : Option α) (P : α → Prop) [∀ a, Decidable (P a)] :
    Decidable (optAll o P) :=
  match o with
  | none => isTrue trivial
  | some a => inferInstanceAs (Decidable (P a))

/-- Structural well-formedness of a cache state: `ids` lists the chain's
node ids from head to tail; the doubly linked pointers, the two ends, the
index and the allocator are all mutually consistent. -/
structure WFS (st : CacheState K V) (ids : List Nat) : Prop where
  head_eq : st.head_ = ids.head?
  tail_eq : st.tail_ = ids.getLast?
  adj : List.Chain' (Adj st) ids
  live : ∀ i ∈ ids, (hfind st.heap i).isSome = true
  head_prev : optAll ids.head? (fun i => prevOf st i = none)
  tail_next : optAll ids.getLast? (fun i => nextOf st i = none)
  nodup : ids.Nodup
  fresh : ∀ i ∈ ids, i < st.nextId
  idx_mem : ∀ p ∈ st.cache_, p.2 ∈ ids ∧ keyOf st p.2 = some p.1
  backref : ∀ i ∈ ids, (keyOf st i).bind (klookup st.cache_) = some i
  keys_nodup : (st.cache_.map Prod.fst).Nodup
  len_eq : st.cache_.length = ids.length
  ok : st.crashed = false

/-- The ghost recency stamps are consistent: all below the clock, and
strictly decreasing from head to tail. -/
def stampsOK (st : CacheState K V) (ids : List Nat) : Prop :=
  (∀ i ∈ ids, stampOf st i < st.clock) ∧
  List.Pairwise (fun a b => stampOf st b < stampOf st a) ids

/-- Full well-formedness: structure plus recency stamps. -/
def WF (st : CacheState K V) (ids : List Nat) : Prop :=
  WFS st ids ∧ stampsOK st ids

/-- The reachable-state invariant: well-formed and within capacity. -/
def Inv (st : CacheState K V) : Prop :=
  ∃ ids, WF st ids ∧ st.cache_.length ≤ st.capacity_

/-- The value currently stored for a key (through the index). -/
def valueOf (st : CacheState K V) (k : K) : Option V :=
  (klookup st.cache_ k).bind (valOf st)

/-- The key held by the tail node (the LRU entry). -/
def tailKey (st : CacheState K V) : Option K :=
  match st.tail_ with
  | some t => keyOf st t
  | none => none

/-- `ids` is the chain of `st`: it starts at `head_`, ends at `tail_`,
consecutive nodes are doubly linked, and every id dereferences. -/
def ChainOf (st : CacheState K V) (ids : List Nat) : Prop :=
  st.head_ = ids.head? ∧ st.tail_ = ids.getLast? ∧
    List.Chain' (Adj st) ids ∧ ∀ i ∈ ids, (hfind st.heap i).isSome = true

/-- I1: the index size equals the chain length. -/
def I1 (st : CacheState K V) (ids : List Nat) : Prop :=
  size st = ids.length

/-- I2: every index entry maps its key to a node appearing exactly once in
the chain, whose stored key is that key. -/
def I2 (st : CacheState K V) (ids : List Nat) : Prop :=
  ∀ p ∈ st.cache_, ids.count p.2 = 1 ∧ keyOf st p.2 = some p.1

/-- I3: the chain is acyclic (no repeated node), the head node has no
`prev_`, the tail node has no `next_`, and an empty chain has both ends
absent. -/
def I3 (st : CacheState K V) (ids : List Nat) : Prop :=
  ids.Nodup ∧ optAll ids.head? (fun i => prevOf st i = none) ∧
    optAll ids.getLast? (fun i => nextOf st i = none) ∧
    (ids = [] → st.head_ = none ∧ st.tail_ = none)

/-- I4: the index size is bounded by the capacity. -/
def I4 (st : CacheState K V) : Prop :=
  size st ≤ st.capacity_

/-- I5: walking head to tail, last-touch times strictly decrease, so the
head is the most recently touched live key. -/
def I5 (st : CacheState K V) (ids : List Nat) : Prop :=
  List.Pairwise (fun a b => stampOf st b < stampOf st a) ids ∧
  optAll ids.head? (fun h => ∀ j ∈ ids, stampOf st j ≤ stampOf st h)

end ThreadSafeCache

namespace ThreadSafeCache

variable {K V : Type} [DecidableEq K]

theorem hfind_hupd (h : List (Nat × Node K V)) (i j : Nat) (f : Node K V → Node K V) :
    hfind (hupd h i f) j = if j = i then (hfind h i).map f else hfind h j := by
  induction h with
  | nil => by_cases hj : j = i <;> simp [hfind, hupd, hj]
  | cons p rest ih =>
    by_cases hp : p.1 = i
    · by_cases hj : j = i
      · simp [hfind, hupd, hp, hj]
      · have hij : ¬ i = j := fun e => hj e.symm
        simp [hfind, hupd, hp, hj, hij]
    · by_cases hj : p.1 = j
      · have : ¬ j = i := by rw [← hj]; exact hp
        simp [hfind, hupd, hp, hj, this]
      · simp [hfind, hupd, hp, hj, ih]

theorem updNode_heap (st : CacheState K V) (i : Nat) (f : Node K V → Node K V) :
    (updNode st i f).heap = hupd st.heap i f := rfl

theorem updNode_head (st : CacheState K V) (i : Nat) (f : Node K V → Node K V) :
    (updNode st i f).head_ = st.head_ := rfl

theorem updNode_tail (st : CacheState K V) (i : Nat) (f : Node K V → Node K V) :
    (updNode st i f).tail_ = st.tail_ := rfl

theorem updNode_cache (st : CacheState K V) (i : Nat) (f : Node K V → Node K V) :
    (updNode st i f).cache_ = st.cache_ := rfl

theorem hfind_updNode (st : CacheState K V) (i j : Nat) (f : Node K V → Node K V) :
    hfind (updNode st i f).heap j = if j = i then (hfind st.heap i).map f else hfind st.heap j :=
  hfind_hupd st.heap i j f

theorem live_upd (st : CacheState K V) (i j : Nat) (f : Node K V → Node K V) :
    (hfind (updNode st i f).heap j).isSome = (hfind st.heap j).isSome := by
  rw [hfind_updNode]
  by_cases hj : j = i
  · subst hj; simp
  · simp [hj]

theorem nextOf_upd_ne (st : CacheState K V) (f : Node K V → Node K V) {i j : Nat}
    (hji : j ≠ i) : nextOf (updNode st i f) j = nextOf st j := by
  simp [nextOf, hfind_updNode, hji]

theorem prevOf_upd_ne (st : CacheState K V) (f : Node K V → Node K V) {i j : Nat}
    (hji : j ≠ i) : prevOf (updNode st i f) j = prevOf st j := by
  simp [prevOf, hfind_updNode, hji]

theorem keyOf_upd_ne (st : CacheState K V) (f : Node K V → Node K V) {i j : Nat}
    (hji : j ≠ i) : keyOf (updNode st i f) j = keyOf st j := by
  simp [keyOf, hfind_updNode, hji]

theorem nextOf_upd_self (st : CacheState K V) (f : Node K V → Node K V) {i : Nat}
    {nd : Node K V} (h : hfind st.heap i = some nd) :
    nextOf (updNode st i f) i = (f nd).next_ := by
  simp [nextOf, hfind_updNode, h]

theorem prevOf_upd_self (st : CacheState K V) (f : Node K V → Node K V) {i : Nat}
    {nd : Node K V} (h : hfind st.heap i = some nd) :
    prevOf (updNode st i f) i = (f nd).prev_ := by
  simp [prevOf, hfind_updNode, h]

theorem nextOf_upd_keep (st : CacheState K V) {i : Nat} {f : Node K V → Node K V}
    (hf : ∀ nd, (f nd).next_ = nd.next_) (j : Nat) :
    nextOf (updNode st i f) j = nextOf st j := by
  by_cases hji : j = i
  · subst hji
    cases hex : hfind st.heap j with
    | none => simp [nextOf, hfind_updNode, hex]
    | some nd => simp [nextOf, hfind_updNode, hex, hf]
  · exact nextOf_upd_ne st f hji

theorem prevOf_upd_keep (st : CacheState K V) {i : Nat} {f : Node K V → Node K V}
    (hf : ∀ nd, (f nd).prev_ = nd.prev_) (j : Nat) :
    prevOf (updNode st i f) j = prevOf st j := by
  by_cases hji : j = i
  · subst hji
    cases hex : hfind st.heap j with
    | none => simp [prevOf, hfind_updNode, hex]
    | some nd => simp [prevOf, hfind_updNode, hex, hf]
  · exact prevOf_upd_ne st f hji

theorem keyOf_upd_keep (st : CacheState K V) {i : Nat} {f : Node K V → Node K V}
    (hf : ∀ nd, (f nd).key_ = nd.key_) (j : Nat) :
    keyOf (updNode st i f) j = keyOf st j := by
  by_cases hji : j = i
  · subst hji
    cases hex : hfind st.heap j with
    | none => simp [keyOf, hfind_updNode, hex]
    | some nd => simp [keyOf, hfind_updNode, hex, hf]
  · exact keyOf_upd_ne st f hji

theorem valOf_upd_keep (st : CacheState K V) {i : Nat} {f : Node K V → Node K V}
    (hf : ∀ nd, (f nd).value_ = nd.value_) (j : Nat) :
    valOf (updNode st i f) j = valOf st j := by
  by_cases hji : j = i
  · subst hji
    cases hex : hfind st.heap j with
    | none => simp [valOf, hfind_updNode, hex]
    | some nd => simp [valOf, hfind_updNode, hex, hf]
  · simp [valOf, hfind_updNode, hji]

theorem stampOf_upd_keep (st : CacheState K V) {i : Nat} {f : Node K V → Node K V}
    (hf : ∀ nd, (f nd).stamp = nd.stamp) (j : Nat) :
    stampOf (updNode st i f) j = stampOf st j := by
  by_cases hji : j = i
  · subst hji
    cases hex : hfind st.heap j with
    | none => simp [stampOf, hfind_updNode, hex]
    | some nd => simp [stampOf, hfind_updNode, hex, hf]
  · simp [stampOf, hfind_updNode, hji]

theorem klookup_mem {l : List (K × Nat)} {k : K} {i : Nat} (h : klookup l k = some i) :
    (k, i) ∈ l := by
  induction l with
  | nil => simp [klookup] at h
  | cons p rest ih =>
    by_cases hp : p.1 = k
    · simp only [klookup, if_pos hp, Option.some.injEq] at h
      exact List.mem_cons.mpr (Or.inl (by rw [← hp, ← h]))
    · simp only [klookup, if_neg hp] at h
      exact List.mem_cons_of_mem p (ih h)

theorem klookup_eq_none {l : List (K × Nat)} {k : K} :
    klookup l k = none ↔ k ∉ l.map Prod.fst := by
  induction l with
  | nil => simp [klookup]
  | cons p rest ih =>
    by_cases hp : p.1 = k
    · simp [klookup, hp]
    · simp [klookup, hp, ih, Ne.symm hp]

theorem klookup_kerase_ne {l : List (K × Nat)} {k k' : K} (h : k' ≠ k) :
    klookup (kerase l k) k' = klookup l k' := by
  induction l with
  | nil => rfl
  | cons p rest ih =>
    by_cases hp : p.1 = k
    · have hp' : ¬ p.1 = k' := by rw [hp]; exact fun e => h e.symm
      simp only [kerase, if_pos hp, klookup, if_neg hp']
    · simp only [kerase, if_neg hp, klookup]
      by_cases hp' : p.1 = k'
      · simp only [if_pos hp']
      · simp only [if_neg hp', ih]

theorem kerase_sublist (l : List (K × Nat)) (k : K) : (kerase l k).Sublist l := by
  induction l with
  | nil => simp [kerase]
  | cons p rest ih =>
    by_cases hp : p.1 = k
    · simpa [kerase, hp] using List.sublist_cons_self p rest
    · simpa [kerase, hp] using List.Sublist.cons₂ p ih

theorem klookup_kerase_self {l : List (K × Nat)} {k : K}
    (h : (l.map Prod.fst).Nodup) : klookup (kerase l k) k = none := by
  induction l with
  | nil => simp [kerase, klookup]
  | cons p rest ih =>
    simp only [List.map_cons, List.nodup_cons] at h
    by_cases hp : p.1 = k
    · rw [klookup_eq_none]
      rw [← hp]
      simpa [kerase, hp] using h.1
    · simp [kerase, klookup, hp, ih h.2]

theorem kerase_length {l : List (K × Nat)} {k : K} (h : (klookup l k).isSome = true) :
    (kerase l k).length + 1 = l.length := by
  induction l with
  | nil => simp [klookup] at h
  | cons p rest ih =>
    by_cases hp : p.1 = k
    · simp [kerase, hp]
    · simp only [klookup, hp, if_neg hp] at h
      simp [kerase, hp, ih h]

theorem mem_kerase_iff {l : List (K × Nat)} {k : K}
    (hnd : (l.map Prod.fst).Nodup) {p : K × Nat} :
    p ∈ kerase l k ↔ p ∈ l ∧ p.1 ≠ k := by
  induction l with
  | nil => simp [kerase]
  | cons q rest ih =>
    simp only [List.map_cons, List.nodup_cons] at hnd
    by_cases hq : q.1 = k
    · rw [kerase, if_pos hq, List.mem_cons]
      constructor
      · intro hp
        have hpfst : p.1 ∈ List.map Prod.fst rest := List.mem_map.mpr ⟨p, hp, rfl⟩
        refine ⟨Or.inr hp, fun e => hnd.1 ?_⟩
        have hqp : q.1 = p.1 := hq.trans e.symm
        exact hqp ▸ hpfst
      · rintro ⟨hor, hpk⟩
        rcases hor with rfl | hp
        · exact absurd hq hpk
        · exact hp
    · rw [kerase, if_neg hq, List.mem_cons, List.mem_cons, ih hnd.2]
      constructor
      · rintro (rfl | ⟨hp, hpk⟩)
        · exact ⟨Or.inl rfl, hq⟩
        · exact ⟨Or.inr hp, hpk⟩
      · rintro ⟨rfl | hp, hpk⟩
        · exact Or.inl rfl
        · exact Or.inr ⟨hp, hpk⟩

theorem klookup_of_mem {l : List (K × Nat)} (hnd : (l.map Prod.fst).Nodup)
    {k : K} {i : Nat} (h : (k, i) ∈ l) : klookup l k = some i := by
  induction l with
  | nil => simp at h
  | cons p rest ih =>
    simp only [List.map_cons, List.nodup_cons] at hnd
    rcases List.mem_cons.mp h with rfl | hmem
    · simp [klookup]
    · by_cases hp : p.1 = k
      · exact absurd (List.mem_map.mpr ⟨(k, i), hmem, hp.symm⟩) hnd.1
      · simp [klookup, hp, ih hnd.2 hmem]

theorem chain'_ext {α : Type} {R S : α → α → Prop} :
    ∀ l : List α, (∀ a ∈ l, ∀ b ∈ l, R a b → S a b) → List.Chain' R l → List.Chain' S l := by
  intro l
  induction l with
  | nil => intro _ _; simp
  | cons x xs ih =>
    intro hag hch
    rw [List.chain'_cons'] at hch ⊢
    refine ⟨?_, ih (fun a ha b hb hr => hag a (List.mem_cons_of_mem x ha)
      b (List.mem_cons_of_mem x hb) hr) hch.2⟩
    intro y hy
    exact hag x (List.mem_cons_self x xs) y
      (List.mem_cons_of_mem x (List.mem_of_mem_head? hy)) (hch.1 y hy)

theorem hfind_isSome_mem {h : List (Nat × Node K V)} {i : Nat}
    (hs : (hfind h i).isSome = true) : i ∈ h.map Prod.fst := by
  induction h with
  | nil => simp [hfind] at hs
  | cons p rest ih =>
    by_cases hp : p.1 = i
    · simp [hp]
    · simp only [hfind, if_neg hp] at hs
      simp [ih hs]

theorem ids_length_le {st : CacheState K V} {ids : List Nat} (hnd : ids.Nodup)
    (hlive : ∀ i ∈ ids, (hfind st.heap i).isSome = true) :
    ids.length ≤ st.heap.length := by
  have hsub : ids ⊆ st.heap.map Prod.fst := fun i hi => hfind_isSome_mem (hlive i hi)
  have := (List.subperm_of_subset hnd hsub).length_le
  simpa using this

theorem WFS.key_back {st : CacheState K V} {ids : List Nat} (w : WFS st ids)
    {i : Nat} (hi : i ∈ ids) :
    ∃ k, keyOf st i = some k ∧ klookup st.cache_ k = some i := by
  have hb := w.backref i hi
  cases hk : keyOf st i with
  | none => rw [hk] at hb; simp at hb
  | some k => rw [hk] at hb; exact ⟨k, rfl, hb⟩

theorem WFS.lookup_node {st : CacheState K V} {ids : List Nat} (w : WFS st ids)
    {k : K} {i : Nat} (h : klookup st.cache_ k = some i) :
    i ∈ ids ∧ keyOf st i = some k :=
  w.idx_mem (k, i) (klookup_mem h)

theorem WFS.nextId_not_mem {st : CacheState K V} {ids : List Nat} (w : WFS st ids) :
    st.nextId ∉ ids :=
  fun h => absurd (w.fresh _ h) (lt_irrefl _)

theorem touch_nextOf (st : CacheState K V) (i j : Nat) :
    nextOf (touch st i) j = nextOf st j := by
  show nextOf (updNode st i (fun nd => { nd with stamp := st.clock })) j = nextOf st j
  apply nextOf_upd_keep
  intro nd
  rfl

theorem touch_prevOf (st : CacheState K V) (i j : Nat) :
    prevOf (touch st i) j = prevOf st j := by
  show prevOf (updNode st i (fun nd => { nd with stamp := st.clock })) j = prevOf st j
  apply prevOf_upd_keep
  intro nd
  rfl

theorem touch_keyOf (st : CacheState K V) (i j : Nat) :
    keyOf (touch st i) j = keyOf st j := by
  show keyOf (updNode st i (fun nd => { nd with stamp := st.clock })) j = keyOf st j
  apply keyOf_upd_keep
  intro nd
  rfl

theorem touch_valOf (st : CacheState K V) (i j : Nat) :
    valOf (touch st i) j = valOf st j := by
  show valOf (updNode st i (fun nd => { nd with stamp := st.clock })) j = valOf st j
  apply valOf_upd_keep
  intro nd
  rfl

theorem touch_live (st : CacheState K V) (i j : Nat) :
    (hfind (touch st i).heap j).isSome = (hfind st.heap j).isSome := by
  show (hfind (updNode st i (fun nd => { nd with stamp := st.clock })).heap j).isSome =
    (hfind st.heap j).isSome
  exact live_upd st i j _

theorem touch_stampOf_ne (st : CacheState K V) {i j : Nat} (h : j ≠ i) :
    stampOf (touch st i) j = stampOf st j := by
  show stampOf (updNode st i (fun nd => { nd with stamp := st.clock })) j = stampOf st j
  simp [stampOf, hfind_updNode, h]

theorem touch_stampOf_self (st : CacheState K V) {i : Nat} {nd : Node K V}
    (h : hfind st.heap i = some nd) : stampOf (touch st i) i = st.clock := by
  show stampOf (updNode st i (fun nd => { nd with stamp := st.clock })) i = st.clock
  simp [stampOf, hfind_updNode, h]

theorem WFS.touch_pres {st : CacheState K V} {ids : List Nat} (w : WFS st ids)
    (i : Nat) : WFS (touch st i) ids := by
  refine ⟨w.head_eq, w.tail_eq, ?_, ?_, ?_, ?_, w.nodup, w.fresh, ?_, ?_,
    w.keys_nodup, w.len_eq, w.ok⟩
  · exact chain'_ext ids
      (fun a _ b _ hr => by
        simpa [Adj, touch_nextOf, touch_prevOf] using hr) w.adj
  · intro j hj; rw [touch_live]; exact w.live j hj
  · have hp := w.head_prev
    cases hh : ids.head? with
    | none => trivial
    | some a =>
      rw [hh] at hp
      simpa [optAll, touch_prevOf] using hp
  · have hp := w.tail_next
    cases hh : ids.getLast? with
    | none => trivial
    | some a =>
      rw [hh] at hp
      simpa [optAll, touch_nextOf] using hp
  · intro p hp
    rcases w.idx_mem p hp with ⟨h1, h2⟩
    exact ⟨h1, by rw [touch_keyOf]; exact h2⟩
  · intro j hj
    rw [touch_keyOf]
    exact w.backref j hj

theorem pushFront_none (st : CacheState K V) (key : K) (value : V) (hh : st.head_ = none) :
    pushFront st key value =
      { capacity_ := st.capacity_, head_ := some st.nextId, tail_ := some st.nextId,
        cache_ := (key, st.nextId) :: st.cache_,
        heap := (st.nextId, ⟨key, value, none, none, st.clock⟩) :: st.heap,
        nextId := st.nextId + 1, clock := st.clock + 1, crashed := st.crashed } := by
  simp [pushFront, updNode, hupd, hh]

theorem pushFront_some (st : CacheState K V) (key : K) (value : V) {h : Nat}
    (hh : st.head_ = some h) (hne : st.nextId ≠ h) :
    pushFront st key value =
      { capacity_ := st.capacity_, head_ := some st.nextId, tail_ := st.tail_,
        cache_ := (key, st.nextId) :: st.cache_,
        heap := (st.nextId, ⟨key, value, none, some h, st.clock⟩) ::
          hupd st.heap h (fun nd => { nd with prev_ := some st.nextId }),
        nextId := st.nextId + 1, clock := st.clock + 1, crashed := st.crashed } := by
  simp [pushFront, updNode, hupd, hh, hne]

theorem pushFront_pres {st : CacheState K V} {ids : List Nat} (w : WFS st ids)
    {key : K} (hk : klookup st.cache_ key = none) (value : V) :
    WFS (pushFront st key value) (st.nextId :: ids) ∧
      (stampsOK st ids → stampsOK (pushFront st key value) (st.nextId :: ids)) := by
  have hknm : key ∉ st.cache_.map Prod.fst := klookup_eq_none.mp hk
  cases ids with
  | nil =>
    have hh : st.head_ = none := by simpa using w.head_eq
    have hc : st.cache_ = [] := List.length_eq_zero.mp (by simpa using w.len_eq)
    rw [pushFront_none st key value hh]
    constructor
    · refine ⟨rfl, rfl, List.chain'_singleton _, ?_, ?_, ?_, by simp, ?_, ?_, ?_, ?_, ?_, w.ok⟩
      · intro i hi
        simp only [List.mem_singleton] at hi
        simp [hfind, hi]
      · simp [optAll, prevOf, hfind]
      · simp [optAll, nextOf, hfind]
      · intro i hi
        simp only [List.mem_cons, List.not_mem_nil, or_false] at hi
        simp [hi]
      · intro p hp
        rw [hc] at hp
        simp only [List.mem_singleton] at hp
        subst hp
        simp [keyOf, hfind]
      · intro i hi
        simp only [List.mem_singleton] at hi
        subst hi
        simp [keyOf, hfind, klookup, Option.bind]
      · rw [hc]; simp
      · rw [hc]; simp
    · intro hs
      constructor
      · intro i hi
        simp only [List.mem_singleton] at hi
        subst hi
        simp [stampOf, hfind]
      · simp
  | cons h t =>
    have hh : st.head_ = some h := by simpa using w.head_eq
    have hne : st.nextId ≠ h := fun e => w.nextId_not_mem (e ▸ List.mem_cons_self h t)
    have hlh := w.live h (List.mem_cons_self h t)
    obtain ⟨hnd, hhnd⟩ := Option.isSome_iff_exists.mp hlh
    have hps := pushFront_some st key value hh hne
    set nnd : Node K V := (⟨key, value, none, some h, st.clock⟩ : Node K V) with hnnd
    set st' := pushFront st key value with hst'
    have e_heap : st'.heap = (st.nextId, nnd) ::
        hupd st.heap h (fun nd => { nd with prev_ := some st.nextId }) := by rw [hps]
    have e_cache : st'.cache_ = (key, st.nextId) :: st.cache_ := by rw [hps]
    have e_head : st'.head_ = some st.nextId := by rw [hps]
    have e_tail : st'.tail_ = st.tail_ := by rw [hps]
    have e_next : st'.nextId = st.nextId + 1 := by rw [hps]
    have e_clock : st'.clock = st.clock + 1 := by rw [hps]
    have e_crash : st'.crashed = st.crashed := by rw [hps]
    have hf : ∀ j, hfind st'.heap j =
        if j = st.nextId then some nnd
        else if j = h then some { hnd with prev_ := some st.nextId }
        else hfind st.heap j := by
      intro j
      rw [e_heap]
      by_cases h1 : j = st.nextId
      · simp [hfind, h1]
      · have h1' : ¬ st.nextId = j := fun e => h1 e.symm
        by_cases h2 : j = h
        · simp [hfind, h1, h1', h2, hfind_hupd, hhnd, hne, Ne.symm hne]
        · simp [hfind, h1, h1', h2, hfind_hupd]
    have hfr : ∀ j ∈ h :: t, j ≠ st.nextId := by
      intro j hj e
      exact w.nextId_not_mem (e ▸ hj)
    have hnext : ∀ j ∈ h :: t, nextOf st' j = nextOf st j := by
      intro j hj
      by_cases h2 : j = h
      · subst h2
        simp [nextOf, hf, hfr j hj, hhnd]
      · simp [nextOf, hf, hfr j hj, h2]
    have hkey : ∀ j ∈ h :: t, keyOf st' j = keyOf st j := by
      intro j hj
      by_cases h2 : j = h
      · subst h2
        simp [keyOf, hf, hfr j hj, hhnd]
      · simp [keyOf, hf, hfr j hj, h2]
    have hstamp : ∀ j ∈ h :: t, stampOf st' j = stampOf st j := by
      intro j hj
      by_cases h2 : j = h
      · subst h2
        simp [stampOf, hf, hfr j hj, hhnd]
      · simp [stampOf, hf, hfr j hj, h2]
    have hprev : ∀ j ∈ h :: t, j ≠ h → prevOf st' j = prevOf st j := by
      intro j hj h2
      simp [prevOf, hf, hfr j hj, h2]
    refine ⟨⟨?_, ?_, ?_, ?_, ?_, ?_, ?_, ?_, ?_, ?_, ?_, ?_, ?_⟩, ?_⟩
    · rw [e_head]; rfl
    · rw [e_tail]
      simpa [List.getLast?_cons_cons] using w.tail_eq
    · rw [List.chain'_cons]
      constructor
      · constructor
        · simp [nextOf, hf, hnnd]
        · simp [prevOf, hf, hne, Ne.symm hne]
      · refine chain'_ext (h :: t) ?_ w.adj
        intro a ha b hb hr
        rcases hr with ⟨hr1, hr2⟩
        refine ⟨by rw [hnext a ha]; exact hr1, ?_⟩
        by_cases h2 : b = h
        · subst h2
          have hw := w.head_prev
          simp only [List.head?_cons, optAll] at hw
          rw [hw] at hr2
          exact absurd hr2 (by simp)
        · rw [hprev b hb h2]; exact hr2
    · intro j hj
      simp only [List.mem_cons] at hj
      rcases hj with rfl | hj
      · simp [hf]
      · have hj' : j ∈ h :: t := List.mem_cons.mpr hj
        by_cases h2 : j = h
        · simp [hf, hfr j hj', h2, Ne.symm hne]
        · have hlv := w.live j hj'
          have hjne : j ≠ st.nextId := hfr j hj'
          simp only [hf, if_neg hjne, if_neg h2]
          exact hlv
    · simp [optAll, prevOf, hf, hnnd]
    · have hlast : (st.nextId :: h :: t).getLast? = (h :: t).getLast? := by
        simp [List.getLast?_cons_cons]
      rw [hlast]
      have hp := w.tail_next
      cases hg : (h :: t).getLast? with
      | none => simp at hg
      | some a =>
        rw [hg] at hp
        have ha : a ∈ h :: t := List.mem_of_mem_getLast? hg
        simpa [optAll, hnext a ha] using hp
    · exact List.nodup_cons.mpr ⟨w.nextId_not_mem, w.nodup⟩
    · intro j hj
      rw [e_next]
      simp only [List.mem_cons] at hj
      rcases hj with rfl | hj
      · simp
      · exact Nat.lt_succ_of_lt (w.fresh j (List.mem_cons.mpr hj))
    · intro p hp
      rw [e_cache] at hp
      simp only [List.mem_cons] at hp
      rcases hp with rfl | hp
      · refine ⟨List.mem_cons_self _ _, ?_⟩
        simp [keyOf, hf]
      · rcases w.idx_mem p hp with ⟨h1, h2⟩
        exact ⟨List.mem_cons_of_mem _ h1, by rw [hkey p.2 h1]; exact h2⟩
    · intro j hj
      rw [e_cache]
      simp only [List.mem_cons] at hj
      rcases hj with rfl | hj
      · simp [keyOf, hf, klookup]
      · have hj' : j ∈ h :: t := List.mem_cons.mpr hj
        obtain ⟨k, hk1, hk2⟩ := w.key_back hj'
        rw [hkey j hj', hk1]
        have hkk' : ¬ (key, st.nextId).1 = k := by
          intro e
          rw [← e] at hk2
          rw [hk] at hk2
          exact Option.noConfusion hk2
        simp only [Option.bind_eq_bind, Option.some_bind, klookup, if_neg hkk']
        exact hk2
    · rw [e_cache]
      simp only [List.map_cons, List.nodup_cons]
      exact ⟨hknm, w.keys_nodup⟩
    · rw [e_cache]
      simpa using w.len_eq
    · rw [e_crash]; exact w.ok
    · intro hs
      constructor
      · intro j hj
        rw [e_clock]
        simp only [List.mem_cons] at hj
        rcases hj with rfl | hj
        · simp [stampOf, hf, hnnd]
        · rw [hstamp j (List.mem_cons.mpr hj)]
          exact Nat.lt_succ_of_lt (hs.1 j (List.mem_cons.mpr hj))
      · rw [List.pairwise_cons]
        constructor
        · intro j hj
          rw [hstamp j hj]
          simp only [stampOf, hf, if_pos rfl, hnnd]
          exact hs.1 j hj
        · refine List.Pairwise.imp_of_mem ?_ hs.2
          intro a b ha hb hr
          rw [hstamp b hb, hstamp a ha]
          exact hr
theorem nextOf_set_head (st : CacheState K V) (x : Option Nat) (j : Nat) :
    nextOf { st with head_ := x } j = nextOf st j := rfl

theorem prevOf_set_head (st : CacheState K V) (x : Option Nat) (j : Nat) :
    prevOf { st with head_ := x } j = prevOf st j := rfl

theorem keyOf_set_head (st : CacheState K V) (x : Option Nat) (j : Nat) :
    keyOf { st with head_ := x } j = keyOf st j := rfl

theorem valOf_set_head (st : CacheState K V) (x : Option Nat) (j : Nat) :
    valOf { st with head_ := x } j = valOf st j := rfl

theorem stampOf_set_head (st : CacheState K V) (x : Option Nat) (j : Nat) :
    stampOf { st with head_ := x } j = stampOf st j := rfl

theorem nextOf_set_tail (st : CacheState K V) (x : Option Nat) (j : Nat) :
    nextOf { st with tail_ := x } j = nextOf st j := rfl

theorem prevOf_set_tail (st : CacheState K V) (x : Option Nat) (j : Nat) :
    prevOf { st with tail_ := x } j = prevOf st j := rfl

theorem keyOf_set_tail (st : CacheState K V) (x : Option Nat) (j : Nat) :
    keyOf { st with tail_ := x } j = keyOf st j := rfl

theorem valOf_set_tail (st : CacheState K V) (x : Option Nat) (j : Nat) :
    valOf { st with tail_ := x } j = valOf st j := rfl

theorem stampOf_set_tail (st : CacheState K V) (x : Option Nat) (j : Nat) :
    stampOf { st with tail_ := x } j = stampOf st j := rfl

theorem hfind_set_head (st : CacheState K V) (x : Option Nat) (j : Nat) :
    hfind ({ st with head_ := x }).heap j = hfind st.heap j := rfl

theorem hfind_set_tail (st : CacheState K V) (x : Option Nat) (j : Nat) :
    hfind ({ st with tail_ := x }).heap j = hfind st.heap j := rfl

theorem nextOf_upd_prev (st : CacheState K V) (a : Nat) (x : Option Nat) (j : Nat) :
    nextOf (updNode st a (fun nd => { nd with prev_ := x })) j = nextOf st j := by
  apply nextOf_upd_keep
  intro nd
  rfl

theorem nextOf_upd_value (st : CacheState K V) (a : Nat) (v : V) (j : Nat) :
    nextOf (updNode st a (fun nd => { nd with value_ := v })) j = nextOf st j := by
  apply nextOf_upd_keep
  intro nd
  rfl

theorem prevOf_upd_next (st : CacheState K V) (a : Nat) (x : Option Nat) (j : Nat) :
    prevOf (updNode st a (fun nd => { nd with next_ := x })) j = prevOf st j := by
  apply prevOf_upd_keep
  intro nd
  rfl

theorem prevOf_upd_value (st : CacheState K V) (a : Nat) (v : V) (j : Nat) :
    prevOf (updNode st a (fun nd => { nd with value_ := v })) j = prevOf st j := by
  apply prevOf_upd_keep
  intro nd
  rfl

theorem keyOf_upd_prev (st : CacheState K V) (a : Nat) (x : Option Nat) (j : Nat) :
    keyOf (updNode st a (fun nd => { nd with prev_ := x })) j = keyOf st j := by
  apply keyOf_upd_keep
  intro nd
  rfl

theorem keyOf_upd_next (st : CacheState K V) (a : Nat) (x : Option Nat) (j : Nat) :
    keyOf (updNode st a (fun nd => { nd with next_ := x })) j = keyOf st j := by
  apply keyOf_upd_keep
  intro nd
  rfl

theorem keyOf_upd_pn (st : CacheState K V) (a : Nat) (x y : Option Nat) (j : Nat) :
    keyOf (updNode st a (fun nd => { nd with prev_ := x, next_ := y })) j = keyOf st j := by
  apply keyOf_upd_keep
  intro nd
  rfl

theorem keyOf_upd_value (st : CacheState K V) (a : Nat) (v : V) (j : Nat) :
    keyOf (updNode st a (fun nd => { nd with value_ := v })) j = keyOf st j := by
  apply keyOf_upd_keep
  intro nd
  rfl

theorem keyOf_upd_clear (st : CacheState K V) (a : Nat) (j : Nat) :
    keyOf (updNode st a clearPtrs) j = keyOf st j := by
  apply keyOf_upd_keep
  intro nd
  rfl

theorem valOf_upd_prev (st : CacheState K V) (a : Nat) (x : Option Nat) (j : Nat) :
    valOf (updNode st a (fun nd => { nd with prev_ := x })) j = valOf st j := by
  apply valOf_upd_keep
  intro nd
  rfl

theorem valOf_upd_next (st : CacheState K V) (a : Nat) (x : Option Nat) (j : Nat) :
    valOf (updNode st a (fun nd => { nd with next_ := x })) j = valOf st j := by
  apply valOf_upd_keep
  intro nd
  rfl

theorem valOf_upd_pn (st : CacheState K V) (a : Nat) (x y : Option Nat) (j : Nat) :
    valOf (updNode st a (fun nd => { nd with prev_ := x, next_ := y })) j = valOf st j := by
  apply valOf_upd_keep
  intro nd
  rfl

theorem valOf_upd_clear (st : CacheState K V) (a : Nat) (j : Nat) :
    valOf (updNode st a clearPtrs) j = valOf st j := by
  apply valOf_upd_keep
  intro nd
  rfl

theorem stampOf_upd_prev (st : CacheState K V) (a : Nat) (x : Option Nat) (j : Nat) :
    stampOf (updNode st a (fun nd => { nd with prev_ := x })) j = stampOf st j := by
  apply stampOf_upd_keep
  intro nd
  rfl

theorem stampOf_upd_next (st : CacheState K V) (a : Nat) (x : Option Nat) (j : Nat) :
    stampOf (updNode st a (fun nd => { nd with next_ := x })) j = stampOf st j := by
  apply stampOf_upd_keep
  intro nd
  rfl

theorem stampOf_upd_pn (st : CacheState K V) (a : Nat) (x y : Option Nat) (j : Nat) :
    stampOf (updNode st a (fun nd => { nd with prev_ := x, next_ := y })) j = stampOf st j := by
  apply stampOf_upd_keep
  intro nd
  rfl

theorem stampOf_upd_value (st : CacheState K V) (a : Nat) (v : V) (j : Nat) :
    stampOf (updNode st a (fun nd => { nd with value_ := v })) j = stampOf st j := by
  apply stampOf_upd_keep
  intro nd
  rfl

theorem stampOf_upd_clear (st : CacheState K V) (a : Nat) (j : Nat) :
    stampOf (updNode st a clearPtrs) j = stampOf st j := by
  apply stampOf_upd_keep
  intro nd
  rfl


theorem mtf_pres {st : CacheState K V} {ids : List Nat} (w : WFS st ids)
    {i : Nat} {l₁ l₂ : List Nat} (hsplit : ids = l₁ ++ i :: l₂) :
    WFS (move_to_front st i) (i :: (l₁ ++ l₂)) ∧
      (move_to_front st i).cache_ = st.cache_ ∧
      (move_to_front st i).clock = st.clock ∧
      (move_to_front st i).capacity_ = st.capacity_ ∧
      (∀ j, keyOf (move_to_front st i) j = keyOf st j) ∧
      (∀ j, valOf (move_to_front st i) j = valOf st j) ∧
      (∀ j, stampOf (move_to_front st i) j = stampOf st j) ∧
      (move_to_front st i).head_ = some i := by
  subst hsplit
  cases l₁ with
  | nil =>
    have hguard : st.head_ = some i := by rw [w.head_eq]; rfl
    have hmtf : move_to_front st i = st := by
      unfold move_to_front
      rw [if_pos hguard]
    rw [hmtf]
    exact ⟨w, rfl, rfl, rfl, fun _ => rfl, fun _ => rfl, fun _ => rfl, hguard⟩
  | cons h l₁' =>
    have hnodup := w.nodup
    rw [List.nodup_append] at hnodup
    obtain ⟨hnd1, hnd2, hdisj⟩ := hnodup
    have hil2 : i ∉ l₂ := (List.nodup_cons.mp hnd2).1
    have hdisj1 : ∀ a ∈ h :: l₁', a ≠ i := fun a ha e =>
      hdisj ha (e ▸ List.mem_cons_self i l₂)
    have hdisj2 : ∀ a ∈ h :: l₁', a ∉ l₂ := fun a ha hb =>
      hdisj ha (List.mem_cons_of_mem i hb)
    have hhne : h ≠ i := hdisj1 h (List.mem_cons_self h l₁')
    have hih : i ≠ h := fun e => hhne e.symm
    have hhead : st.head_ = some h := by rw [w.head_eq]; rfl
    have hguard : ¬ st.head_ = some i := by
      rw [hhead]
      simp only [Option.some.injEq]
      exact hhne
    obtain ⟨pi, hpi⟩ : ∃ a, (h :: l₁').getLast? = some a :=
      ⟨(h :: l₁').getLast (by simp), List.getLast?_eq_getLast _ _⟩
    have hpimem : pi ∈ h :: l₁' := List.mem_of_mem_getLast? hpi
    have hpine : pi ≠ i := hdisj1 pi hpimem
    have hip : i ≠ pi := fun e => hpine e.symm
    have hadj := w.adj
    rw [List.chain'_append] at hadj
    obtain ⟨hc1, hc2, hseam⟩ := hadj
    have hAdjpii : Adj st pi i := hseam pi hpi i rfl
    have hprev_i : prevOf st i = some pi := hAdjpii.2
    have hnext_pi : nextOf st pi = some i := hAdjpii.1
    have hlivei := w.live i (by simp)
    obtain ⟨ndi, hndi⟩ := Option.isSome_iff_exists.mp hlivei
    have hliveh := w.live h (by simp)
    have hlivepi := w.live pi (List.mem_append.mpr (Or.inl hpimem))
    obtain ⟨ndpi, hndpi⟩ := Option.isSome_iff_exists.mp hlivepi
    have hheadprev : prevOf st h = none := by
      have hp := w.head_prev
      simp only [List.cons_append, List.head?_cons, optAll] at hp
      exact hp
    cases l₂ with
    | nil =>
      simp only [List.append_nil]
      have hpermN : ((h :: l₁') ++ [i]).Perm (i :: h :: l₁') := by
        simpa using (@List.perm_middle _ i (h :: l₁') [])
      have htail : st.tail_ = some i := by
        rw [w.tail_eq, List.getLast?_concat]
      have hnext_i : nextOf st i = none := by
        have hp := w.tail_next
        rw [List.getLast?_concat] at hp
        exact hp
      have hmtf : move_to_front st i =
          { updNode (updNode (updNode { st with tail_ := some pi } pi
              (fun nd => { nd with next_ := none }))
              i (fun nd => { nd with prev_ := none, next_ := some h }))
              h (fun nd => { nd with prev_ := some i }) with head_ := some i } := by
        unfold move_to_front
        rw [if_neg hguard, if_pos htail, hprev_i, hnext_i]
        simp only [updNode_head, hhead]
      have hfind1 : hfind (updNode { st with tail_ := some pi } pi
          (fun nd => { nd with next_ := none })).heap i = some ndi := by
        rw [hfind_updNode, if_neg hip]
        exact hndi
      have hN_i : nextOf (move_to_front st i) i = some h := by
        rw [hmtf, nextOf_set_head, nextOf_upd_prev, nextOf_upd_self _ _ hfind1]
      have hP_i : prevOf (move_to_front st i) i = none := by
        rw [hmtf, prevOf_set_head, prevOf_upd_ne _ _ hih, prevOf_upd_self _ _ hfind1]
      have hlive3 : (hfind (updNode (updNode { st with tail_ := some pi } pi
          (fun nd => { nd with next_ := none }))
          i (fun nd => { nd with prev_ := none, next_ := some h })).heap h).isSome = true := by
        rw [live_upd, live_upd]
        exact hliveh
      obtain ⟨ndh3, hndh3⟩ := Option.isSome_iff_exists.mp hlive3
      have hP_h : prevOf (move_to_front st i) h = some i := by
        rw [hmtf, prevOf_set_head, prevOf_upd_self _ _ hndh3]
      have hfindA : hfind ({ st with tail_ := some pi } : CacheState K V).heap pi =
          some ndpi := hndpi
      have hN_pi : nextOf (move_to_front st i) pi = none := by
        rw [hmtf, nextOf_set_head, nextOf_upd_prev, nextOf_upd_ne _ _ hpine,
          nextOf_upd_self _ _ hfindA]
      have hNfr : ∀ j, j ≠ i → j ≠ pi → nextOf (move_to_front st i) j = nextOf st j := by
        intro j hji hjp
        rw [hmtf, nextOf_set_head, nextOf_upd_prev, nextOf_upd_ne _ _ hji,
          nextOf_upd_ne _ _ hjp, nextOf_set_tail]
      have hPfr : ∀ j, j ≠ i → j ≠ h → prevOf (move_to_front st i) j = prevOf st j := by
        intro j hji hjh
        rw [hmtf, prevOf_set_head, prevOf_upd_ne _ _ hjh, prevOf_upd_ne _ _ hji,
          prevOf_upd_next, prevOf_set_tail]
      have hK : ∀ j, keyOf (move_to_front st i) j = keyOf st j := by
        intro j
        rw [hmtf, keyOf_set_head, keyOf_upd_prev, keyOf_upd_pn, keyOf_upd_next,
          keyOf_set_tail]
      have hV : ∀ j, valOf (move_to_front st i) j = valOf st j := by
        intro j
        rw [hmtf, valOf_set_head, valOf_upd_prev, valOf_upd_pn, valOf_upd_next,
          valOf_set_tail]
      have hS : ∀ j, stampOf (move_to_front st i) j = stampOf st j := by
        intro j
        rw [hmtf, stampOf_set_head, stampOf_upd_prev, stampOf_upd_pn, stampOf_upd_next,
          stampOf_set_tail]
      have hIs : ∀ j, (hfind (move_to_front st i).heap j).isSome =
          (hfind st.heap j).isSome := by
        intro j
        rw [hmtf, hfind_set_head, live_upd, live_upd, live_upd, hfind_set_tail]
      have hhd : (move_to_front st i).head_ = some i := by rw [hmtf]
      have htl2 : (move_to_front st i).tail_ = some pi := by rw [hmtf]; rfl
      have hcache : (move_to_front st i).cache_ = st.cache_ := by rw [hmtf]; rfl
      have hclock : (move_to_front st i).clock = st.clock := by rw [hmtf]; rfl
      have hcap : (move_to_front st i).capacity_ = st.capacity_ := by rw [hmtf]; rfl
      have hnid : (move_to_front st i).nextId = st.nextId := by rw [hmtf]; rfl
      have hcrash : (move_to_front st i).crashed = st.crashed := by rw [hmtf]; rfl
      refine ⟨⟨?_, ?_, ?_, ?_, ?_, ?_, ?_, ?_, ?_, ?_, ?_, ?_, ?_⟩,
        hcache, hclock, hcap, hK, hV, hS, hhd⟩
      · rw [hhd]; rfl
      · rw [htl2, List.getLast?_cons_cons, hpi]
      · rw [List.chain'_cons']
        constructor
        · intro y hy
          simp only [List.head?_cons, Option.mem_def, Option.some.injEq] at hy
          subst hy
          exact ⟨hN_i, hP_h⟩
        · refine chain'_ext _ ?_ hc1
          intro a ha b hb hr
          have hanei : a ≠ i := hdisj1 a ha
          have hbnei : b ≠ i := hdisj1 b hb
          refine ⟨?_, ?_⟩
          · by_cases hap : a = pi
            · exfalso
              have h1 := hr.1
              rw [hap, hnext_pi] at h1
              exact hbnei (Option.some.inj h1).symm
            · rw [hNfr a hanei hap]; exact hr.1
          · by_cases hbh : b = h
            · exfalso
              have h2 := hr.2
              rw [hbh, hheadprev] at h2
              exact Option.noConfusion h2
            · rw [hPfr b hbnei hbh]; exact hr.2
      · intro j hj
        rw [hIs j]
        exact w.live j (hpermN.mem_iff.mpr hj)
      · exact hP_i
      · rw [show (i :: h :: l₁').getLast? = (h :: l₁').getLast? from
          List.getLast?_cons_cons, hpi]
        exact hN_pi
      · exact (hpermN.nodup_iff).mp w.nodup
      · intro j hj
        rw [hnid]
        exact w.fresh j (hpermN.mem_iff.mpr hj)
      · intro p hp
        rw [hcache] at hp
        obtain ⟨m1, m2⟩ := w.idx_mem p hp
        exact ⟨hpermN.mem_iff.mp m1, by rw [hK]; exact m2⟩
      · intro j hj
        rw [hK j, hcache]
        exact w.backref j (hpermN.mem_iff.mpr hj)
      · rw [hcache]; exact w.keys_nodup
      · rw [hcache, w.len_eq, hpermN.length_eq]
      · rw [hcrash]; exact w.ok
    | cons n l₂' =>
      have hpermN : ((h :: l₁') ++ i :: n :: l₂').Perm (i :: ((h :: l₁') ++ n :: l₂')) :=
        List.perm_middle
      have hnmem : n ∈ n :: l₂' := List.mem_cons_self n l₂'
      have hni : n ≠ i := fun e => hil2 (e ▸ hnmem)
      have hin : i ≠ n := fun e => hni e.symm
      have hnh : n ≠ h := fun e =>
        hdisj2 h (List.mem_cons_self h l₁') (e ▸ hnmem)
      have hhn : h ≠ n := fun e => hnh e.symm
      have hnpi : n ≠ pi := fun e => hdisj2 pi hpimem (e ▸ hnmem)
      have hpin : pi ≠ n := fun e => hnpi e.symm
      have hliven := w.live n (List.mem_append.mpr (Or.inr (List.mem_cons_of_mem i hnmem)))
      obtain ⟨tl, htlv⟩ : ∃ a, (n :: l₂').getLast? = some a :=
        ⟨(n :: l₂').getLast (by simp), List.getLast?_eq_getLast _ _⟩
      have htlmem : tl ∈ n :: l₂' := List.mem_of_mem_getLast? htlv
      have htl0 : st.tail_ = some tl := by
        rw [w.tail_eq, List.getLast?_append_of_ne_nil _ (List.cons_ne_nil i _),
          List.getLast?_cons_cons, htlv]
      have htlne : ¬ st.tail_ = some i := by
        rw [htl0]
        simp only [Option.some.injEq]
        exact fun e => hil2 (e ▸ htlmem)
      rw [List.chain'_cons] at hc2
      have hnext_i : nextOf st i = some n := hc2.1.1
      have hprev_n : prevOf st n = some i := hc2.1.2
      have hmtf : move_to_front st i =
          { updNode (updNode (updNode (updNode st pi
              (fun nd => { nd with next_ := some n }))
              n (fun nd => { nd with prev_ := some pi }))
              i (fun nd => { nd with prev_ := none, next_ := some h }))
              h (fun nd => { nd with prev_ := some i }) with head_ := some i } := by
        unfold move_to_front
        rw [if_neg hguard, if_neg htlne, hprev_i, hnext_i]
        simp only [updNode_head, hhead]
      have hfind2 : hfind (updNode (updNode st pi
          (fun nd => { nd with next_ := some n }))
          n (fun nd => { nd with prev_ := some pi })).heap i = some ndi := by
        rw [hfind_updNode, if_neg hin, hfind_updNode, if_neg hip]
        exact hndi
      have hN_i : nextOf (move_to_front st i) i = some h := by
        rw [hmtf, nextOf_set_head, nextOf_upd_prev, nextOf_upd_self _ _ hfind2]
      have hP_i : prevOf (move_to_front st i) i = none := by
        rw [hmtf, prevOf_set_head, prevOf_upd_ne _ _ hih, prevOf_upd_self _ _ hfind2]
      have hlive4 : (hfind (updNode (updNode (updNode st pi
          (fun nd => { nd with next_ := some n }))
          n (fun nd => { nd with prev_ := some pi }))
          i (fun nd => { nd with prev_ := none, next_ := some h })).heap h).isSome = true := by
        rw [live_upd, live_upd, live_upd]
        exact hliveh
      obtain ⟨ndh4, hndh4⟩ := Option.isSome_iff_exists.mp hlive4
      have hP_h : prevOf (move_to_front st i) h = some i := by
        rw [hmtf, prevOf_set_head, prevOf_upd_self _ _ hndh4]
      have hN_pi : nextOf (move_to_front st i) pi = some n := by
        rw [hmtf, nextOf_set_head, nextOf_upd_prev, nextOf_upd_ne _ _ hpine,
          nextOf_upd_prev, nextOf_upd_self _ _ hndpi]
      obtain ⟨ndn, hndn⟩ := Option.isSome_iff_exists.mp hliven
      have hfind1n : hfind (updNode st pi
          (fun nd => { nd with next_ := some n })).heap n = some ndn := by
        rw [hfind_updNode, if_neg hnpi]
        exact hndn
      have hP_n : prevOf (move_to_front st i) n = some pi := by
        rw [hmtf, prevOf_set_head, prevOf_upd_ne _ _ hnh, prevOf_upd_ne _ _ hni,
          prevOf_upd_self _ _ hfind1n]
      have hNfr : ∀ j, j ≠ i → j ≠ pi → nextOf (move_to_front st i) j = nextOf st j := by
        intro j hji hjp
        rw [hmtf, nextOf_set_head, nextOf_upd_prev, nextOf_upd_ne _ _ hji,
          nextOf_upd_prev, nextOf_upd_ne _ _ hjp]
      have hPfr : ∀ j, j ≠ i → j ≠ h → j ≠ n →
          prevOf (move_to_front st i) j = prevOf st j := by
        intro j hji hjh hjn
        rw [hmtf, prevOf_set_head, prevOf_upd_ne _ _ hjh, prevOf_upd_ne _ _ hji,
          prevOf_upd_ne _ _ hjn, prevOf_upd_next]
      have hK : ∀ j, keyOf (move_to_front st i) j = keyOf st j := by
        intro j
        rw [hmtf, keyOf_set_head, keyOf_upd_prev, keyOf_upd_pn, keyOf_upd_prev,
          keyOf_upd_next]
      have hV : ∀ j, valOf (move_to_front st i) j = valOf st j := by
        intro j
        rw [hmtf, valOf_set_head, valOf_upd_prev, valOf_upd_pn, valOf_upd_prev,
          valOf_upd_next]
      have hS : ∀ j, stampOf (move_to_front st i) j = stampOf st j := by
        intro j
        rw [hmtf, stampOf_set_head, stampOf_upd_prev, stampOf_upd_pn, stampOf_upd_prev,
          stampOf_upd_next]
      have hIs : ∀ j, (hfind (move_to_front st i).heap j).isSome =
          (hfind st.heap j).isSome := by
        intro j
        rw [hmtf, hfind_set_head, live_upd, live_upd, live_upd, live_upd]
      have hhd : (move_to_front st i).head_ = some i := by rw [hmtf]
      have htl2 : (move_to_front st i).tail_ = st.tail_ := by rw [hmtf]; rfl
      have hcache : (move_to_front st i).cache_ = st.cache_ := by rw [hmtf]; rfl
      have hclock : (move_to_front st i).clock = st.clock := by rw [hmtf]; rfl
      have hcap : (move_to_front st i).capacity_ = st.capacity_ := by rw [hmtf]; rfl
      have hnid : (move_to_front st i).nextId = st.nextId := by rw [hmtf]; rfl
      have hcrash : (move_to_front st i).crashed = st.crashed := by rw [hmtf]; rfl
      refine ⟨⟨?_, ?_, ?_, ?_, ?_, ?_, ?_, ?_, ?_, ?_, ?_, ?_, ?_⟩,
        hcache, hclock, hcap, hK, hV, hS, hhd⟩
      · rw [hhd]; rfl
      · rw [htl2, htl0]
        rw [show (i :: ((h :: l₁') ++ n :: l₂')).getLast? =
          ((h :: l₁') ++ n :: l₂').getLast? from List.getLast?_cons_cons]
        rw [List.getLast?_append_of_ne_nil _ (List.cons_ne_nil n _), htlv]
      · rw [List.chain'_cons']
        constructor
        · intro y hy
          simp only [List.cons_append, List.head?_cons, Option.mem_def,
            Option.some.injEq] at hy
          subst hy
          exact ⟨hN_i, hP_h⟩
        · rw [List.chain'_append]
          refine ⟨?_, ?_, ?_⟩
          · refine chain'_ext _ ?_ hc1
            intro a ha b hb hr
            have hanei : a ≠ i := hdisj1 a ha
            have hbnei : b ≠ i := hdisj1 b hb
            have hbnn : b ≠ n := fun e => hdisj2 b hb (e ▸ hnmem)
            refine ⟨?_, ?_⟩
            · by_cases hap : a = pi
              · exfalso
                have h1 := hr.1
                rw [hap, hnext_pi] at h1
                exact hbnei (Option.some.inj h1).symm
              · rw [hNfr a hanei hap]; exact hr.1
            · by_cases hbh : b = h
              · exfalso
                have h2 := hr.2
                rw [hbh, hheadprev] at h2
                exact Option.noConfusion h2
              · rw [hPfr b hbnei hbh hbnn]; exact hr.2
          · refine chain'_ext _ ?_ hc2.2
            intro a ha b hb hr
            have hanei : a ≠ i := fun e => hil2 (e ▸ ha)
            have hbnei : b ≠ i := fun e => hil2 (e ▸ hb)
            have hanpi : a ≠ pi := fun e => hdisj2 pi hpimem (e ▸ ha)
            have hbnh : b ≠ h := fun e => hdisj2 h (List.mem_cons_self h l₁') (e ▸ hb)
            refine ⟨?_, ?_⟩
            · rw [hNfr a hanei hanpi]; exact hr.1
            · by_cases hbn : b = n
              · exfalso
                have h2 := hr.2
                rw [hbn, hprev_n] at h2
                have : i = a := Option.some.inj h2
                exact hanei this.symm
              · rw [hPfr b hbnei hbnh hbn]; exact hr.2
          · intro x hx y hy
            rw [hpi] at hx
            simp only [Option.mem_def, Option.some.injEq] at hx
            simp only [List.head?_cons, Option.mem_def, Option.some.injEq] at hy
            subst hx
            subst hy
            exact ⟨hN_pi, hP_n⟩
      · intro j hj
        rw [hIs j]
        exact w.live j (hpermN.mem_iff.mpr hj)
      · exact hP_i
      · rw [show (i :: ((h :: l₁') ++ n :: l₂')).getLast? =
          ((h :: l₁') ++ n :: l₂').getLast? from List.getLast?_cons_cons]
        rw [List.getLast?_append_of_ne_nil _ (List.cons_ne_nil n _), htlv]
        have htlni : tl ≠ i := fun e => hil2 (e ▸ htlmem)
        have htlnpi : tl ≠ pi := fun e => hdisj2 pi hpimem (e ▸ htlmem)
        show nextOf (move_to_front st i) tl = none
        rw [hNfr tl htlni htlnpi]
        have hp := w.tail_next
        rw [List.getLast?_append_of_ne_nil _ (List.cons_ne_nil i _),
          List.getLast?_cons_cons, htlv] at hp
        exact hp
      · exact (hpermN.nodup_iff).mp w.nodup
      · intro j hj
        rw [hnid]
        exact w.fresh j (hpermN.mem_iff.mpr hj)
      · intro p hp
        rw [hcache] at hp
        obtain ⟨m1, m2⟩ := w.idx_mem p hp
        exact ⟨hpermN.mem_iff.mp m1, by rw [hK]; exact m2⟩
      · intro j hj
        rw [hK j, hcache]
        exact w.backref j (hpermN.mem_iff.mpr hj)
      · rw [hcache]; exact w.keys_nodup
      · rw [hcache, w.len_eq, hpermN.length_eq]
      · rw [hcrash]; exact w.ok

theorem nextOf_set_ct (st : CacheState K V) (c : List (K × Nat)) (y : Option Nat) (j : Nat) :
    nextOf { st with cache_ := c, tail_ := y } j = nextOf st j := rfl

theorem prevOf_set_ct (st : CacheState K V) (c : List (K × Nat)) (y : Option Nat) (j : Nat) :
    prevOf { st with cache_ := c, tail_ := y } j = prevOf st j := rfl

theorem keyOf_set_ct (st : CacheState K V) (c : List (K × Nat)) (y : Option Nat) (j : Nat) :
    keyOf { st with cache_ := c, tail_ := y } j = keyOf st j := rfl

theorem valOf_set_ct (st : CacheState K V) (c : List (K × Nat)) (y : Option Nat) (j : Nat) :
    valOf { st with cache_ := c, tail_ := y } j = valOf st j := rfl

theorem stampOf_set_ct (st : CacheState K V) (c : List (K × Nat)) (y : Option Nat) (j : Nat) :
    stampOf { st with cache_ := c, tail_ := y } j = stampOf st j := rfl

theorem hfind_set_ct (st : CacheState K V) (c : List (K × Nat)) (y : Option Nat) (j : Nat) :
    hfind ({ st with cache_ := c, tail_ := y }).heap j = hfind st.heap j := rfl

theorem idx_after_kerase {st st' : CacheState K V} {ids ids' : List Nat} (w : WFS st ids)
    (hsub : ids' ⊆ ids) {k : K} {i : Nat} (hki : klookup st.cache_ k = some i)
    (hcache : st'.cache_ = kerase st.cache_ k)
    (hK : ∀ j, keyOf st' j = keyOf st j)
    (hni : i ∉ ids')
    (hmem : ∀ j ∈ ids, j ≠ i → j ∈ ids') :
    (∀ p ∈ st'.cache_, p.2 ∈ ids' ∧ keyOf st' p.2 = some p.1) ∧
      (∀ j ∈ ids', (keyOf st' j).bind (klookup st'.cache_) = some j) ∧
      (st'.cache_.map Prod.fst).Nodup ∧
      st'.cache_.length + 1 = st.cache_.length := by
  have hkeyi : keyOf st i = some k := (w.lookup_node hki).2
  refine ⟨?_, ?_, ?_, ?_⟩
  · intro p hp
    rw [hcache] at hp
    rw [mem_kerase_iff w.keys_nodup] at hp
    obtain ⟨hp1, hp2⟩ := hp
    obtain ⟨m1, m2⟩ := w.idx_mem p hp1
    have hpne : p.2 ≠ i := by
      intro e
      rw [e, hkeyi] at m2
      exact hp2 (Option.some.inj m2).symm
    exact ⟨hmem p.2 m1 hpne, by rw [hK]; exact m2⟩
  · intro j hj
    obtain ⟨k', hk1, hk2⟩ := w.key_back (hsub hj)
    have hkne : k' ≠ k := by
      intro e
      rw [e, hki] at hk2
      exact hni ((Option.some.inj hk2) ▸ hj)
    rw [hK, hk1, hcache]
    simp only [Option.bind_eq_bind, Option.some_bind]
    rw [klookup_kerase_ne hkne]
    exact hk2
  · rw [hcache]
    exact List.Nodup.sublist (List.Sublist.map Prod.fst (kerase_sublist _ _)) w.keys_nodup
  · rw [hcache]
    exact kerase_length (by rw [hki]; rfl)

theorem stamps_transfer {st st' : CacheState K V} {ids ids' : List Nat}
    (hs : stampsOK st ids) (hsub : ids'.Sublist ids)
    (hS : ∀ j, stampOf st' j = stampOf st j) (hclock : st'.clock = st.clock) :
    stampsOK st' ids' := by
  constructor
  · intro j hj
    rw [hS, hclock]
    exact hs.1 j (hsub.mem hj)
  · refine List.Pairwise.imp_of_mem ?_ (hs.2.sublist hsub)
    intro a b _ _ hr
    rw [hS, hS]
    exact hr

theorem evict_pres {st : CacheState K V} {ids : List Nat} (w : WFS st ids)
    {l : List Nat} {t : Nat} (hsplit : ids = l ++ [t]) (hl : l ≠ [])
    (hover : st.cache_.length > st.capacity_) :
    WFS (evictIfOver st) l ∧
      (stampsOK st ids → stampsOK (evictIfOver st) l) ∧
      (∃ tk, keyOf st t = some tk ∧ (evictIfOver st).cache_ = kerase st.cache_ tk) ∧
      (evictIfOver st).head_ = st.head_ ∧
      (evictIfOver st).clock = st.clock ∧
      (evictIfOver st).capacity_ = st.capacity_ ∧
      (∀ j, keyOf (evictIfOver st) j = keyOf st j) ∧
      (∀ j, valOf (evictIfOver st) j = valOf st j) := by
  subst hsplit
  have hnodup := w.nodup
  rw [List.nodup_append] at hnodup
  obtain ⟨hndl, _, hdisj⟩ := hnodup
  have htnl : t ∉ l := fun ht => hdisj ht (List.mem_cons_self t [])
  have htail : st.tail_ = some t := by rw [w.tail_eq, List.getLast?_concat]
  obtain ⟨pi, hpi⟩ : ∃ a, l.getLast? = some a :=
    ⟨l.getLast hl, List.getLast?_eq_getLast _ _⟩
  have hpimem : pi ∈ l := List.mem_of_mem_getLast? hpi
  have hpint : pi ≠ t := fun e => htnl (e ▸ hpimem)
  have hadj := w.adj
  rw [List.chain'_append] at hadj
  obtain ⟨hc1, _, hseam⟩ := hadj
  have hAdj : Adj st pi t := hseam pi hpi t rfl
  have hlivet := w.live t (List.mem_append.mpr (Or.inr (List.mem_cons_self t [])))
  obtain ⟨tnd, htnd⟩ := Option.isSome_iff_exists.mp hlivet
  have hlivepi := w.live pi (List.mem_append.mpr (Or.inl hpimem))
  obtain ⟨ndpi, hndpi⟩ := Option.isSome_iff_exists.mp hlivepi
  have htndprev : tnd.prev_ = some pi := by
    have h2 := hAdj.2
    rw [prevOf, htnd] at h2
    exact h2
  have htkey : keyOf st t = some tnd.key_ := by rw [keyOf, htnd]
  have hklt : klookup st.cache_ tnd.key_ = some t := by
    have hb := w.backref t (List.mem_append.mpr (Or.inr (List.mem_cons_self t [])))
    rw [htkey] at hb
    simpa using hb
  have hev : evictIfOver st =
      { updNode st pi (fun nd => { nd with next_ := none }) with
        cache_ := kerase st.cache_ tnd.key_, tail_ := some pi } := by
    unfold evictIfOver
    rw [if_pos hover, htail]
    simp only [htnd, htndprev, updNode_cache]
  have hK : ∀ j, keyOf (evictIfOver st) j = keyOf st j := by
    intro j
    rw [hev, keyOf_set_ct, keyOf_upd_next]
  have hV : ∀ j, valOf (evictIfOver st) j = valOf st j := by
    intro j
    rw [hev, valOf_set_ct, valOf_upd_next]
  have hS : ∀ j, stampOf (evictIfOver st) j = stampOf st j := by
    intro j
    rw [hev, stampOf_set_ct, stampOf_upd_next]
  have hP : ∀ j, prevOf (evictIfOver st) j = prevOf st j := by
    intro j
    rw [hev, prevOf_set_ct, prevOf_upd_next]
  have hNfr : ∀ j, j ≠ pi → nextOf (evictIfOver st) j = nextOf st j := by
    intro j hj
    rw [hev, nextOf_set_ct, nextOf_upd_ne _ _ hj]
  have hN_pi : nextOf (evictIfOver st) pi = none := by
    rw [hev, nextOf_set_ct, nextOf_upd_self _ _ hndpi]
  have hIs : ∀ j, (hfind (evictIfOver st).heap j).isSome = (hfind st.heap j).isSome := by
    intro j
    rw [hev, hfind_set_ct, live_upd]
  have hcache : (evictIfOver st).cache_ = kerase st.cache_ tnd.key_ := by
    rw [hev]
  have hhead : (evictIfOver st).head_ = st.head_ := by rw [hev]; rfl
  have htl : (evictIfOver st).tail_ = some pi := by rw [hev]
  have hclock : (evictIfOver st).clock = st.clock := by rw [hev]; rfl
  have hcap : (evictIfOver st).capacity_ = st.capacity_ := by rw [hev]; rfl
  have hnid : (evictIfOver st).nextId = st.nextId := by rw [hev]; rfl
  have hcrash : (evictIfOver st).crashed = st.crashed := by rw [hev]; rfl
  have hsubl : l.Sublist (l ++ [t]) := List.sublist_append_left l [t]
  obtain ⟨hidx, hback, hkeysnd, hlen⟩ := idx_after_kerase w
    (fun a ha => List.mem_append.mpr (Or.inl ha)) hklt hcache hK htnl
    (fun j hj hne => by
      rcases List.mem_append.mp hj with h1 | h1
      · exact h1
      · exact absurd (List.mem_singleton.mp h1) hne)
  refine ⟨⟨?_, ?_, ?_, ?_, ?_, ?_, ?_, ?_, hidx, hback, hkeysnd, ?_, ?_⟩,
    ?_, ⟨tnd.key_, htkey, hcache⟩, hhead, hclock, hcap, hK, hV⟩
  · rw [hhead, w.head_eq]
    cases l with
    | nil => exact absurd rfl hl
    | cons a l' => rfl
  · rw [htl, hpi]
  · refine chain'_ext _ ?_ hc1
    intro a ha b hb hr
    refine ⟨?_, by rw [hP]; exact hr.2⟩
    by_cases hap : a = pi
    · exfalso
      have h1 := hr.1
      rw [hap, hAdj.1] at h1
      exact htnl ((Option.some.inj h1) ▸ hb)
    · rw [hNfr a hap]; exact hr.1
  · intro j hj
    rw [hIs]
    exact w.live j (List.mem_append.mpr (Or.inl hj))
  · have hp := w.head_prev
    cases l with
    | nil => exact absurd rfl hl
    | cons a l' =>
      simp only [List.cons_append, List.head?_cons, optAll] at hp ⊢
      rw [hP]
      exact hp
  · rw [hpi]
    exact hN_pi
  · exact List.Nodup.sublist hsubl w.nodup
  · intro j hj
    rw [hnid]
    exact w.fresh j (List.mem_append.mpr (Or.inl hj))
  · have := w.len_eq
    rw [List.length_append, List.length_singleton] at this
    omega
  · rw [hcrash]; exact w.ok
  · intro hs
    exact stamps_transfer hs hsubl hS hclock

theorem nextOf_set_c (st : CacheState K V) (c : List (K × Nat)) (j : Nat) :
    nextOf { st with cache_ := c } j = nextOf st j := rfl

theorem prevOf_set_c (st : CacheState K V) (c : List (K × Nat)) (j : Nat) :
    prevOf { st with cache_ := c } j = prevOf st j := rfl

theorem keyOf_set_c (st : CacheState K V) (c : List (K × Nat)) (j : Nat) :
    keyOf { st with cache_ := c } j = keyOf st j := rfl

theorem valOf_set_c (st : CacheState K V) (c : List (K × Nat)) (j : Nat) :
    valOf { st with cache_ := c } j = valOf st j := rfl

theorem stampOf_set_c (st : CacheState K V) (c : List (K × Nat)) (j : Nat) :
    stampOf { st with cache_ := c } j = stampOf st j := rfl

theorem hfind_set_c (st : CacheState K V) (c : List (K × Nat)) (j : Nat) :
    hfind ({ st with cache_ := c }).heap j = hfind st.heap j := rfl

theorem nextOf_set_hc (st : CacheState K V) (x : Option Nat) (c : List (K × Nat)) (j : Nat) :
    nextOf { st with head_ := x, cache_ := c } j = nextOf st j := rfl

theorem prevOf_set_hc (st : CacheState K V) (x : Option Nat) (c : List (K × Nat)) (j : Nat) :
    prevOf { st with head_ := x, cache_ := c } j = prevOf st j := rfl

theorem keyOf_set_hc (st : CacheState K V) (x : Option Nat) (c : List (K × Nat)) (j : Nat) :
    keyOf { st with head_ := x, cache_ := c } j = keyOf st j := rfl

theorem valOf_set_hc (st : CacheState K V) (x : Option Nat) (c : List (K × Nat)) (j : Nat) :
    valOf { st with head_ := x, cache_ := c } j = valOf st j := rfl

theorem stampOf_set_hc (st : CacheState K V) (x : Option Nat) (c : List (K × Nat)) (j : Nat) :
    stampOf { st with head_ := x, cache_ := c } j = stampOf st j := rfl

theorem hfind_set_hc (st : CacheState K V) (x : Option Nat) (c : List (K × Nat)) (j : Nat) :
    hfind ({ st with head_ := x, cache_ := c }).heap j = hfind st.heap j := rfl

theorem nextOf_set_htc (st : CacheState K V) (x y : Option Nat) (c : List (K × Nat)) (j : Nat) :
    nextOf { st with head_ := x, tail_ := y, cache_ := c } j = nextOf st j := rfl

theorem prevOf_set_htc (st : CacheState K V) (x y : Option Nat) (c : List (K × Nat)) (j : Nat) :
    prevOf { st with head_ := x, tail_ := y, cache_ := c } j = prevOf st j := rfl

theorem keyOf_set_htc (st : CacheState K V) (x y : Option Nat) (c : List (K × Nat)) (j : Nat) :
    keyOf { st with head_ := x, tail_ := y, cache_ := c } j = keyOf st j := rfl

theorem valOf_set_htc (st : CacheState K V) (x y : Option Nat) (c : List (K × Nat)) (j : Nat) :
    valOf { st with head_ := x, tail_ := y, cache_ := c } j = valOf st j := rfl

theorem stampOf_set_htc (st : CacheState K V) (x y : Option Nat) (c : List (K × Nat)) (j : Nat) :
    stampOf { st with head_ := x, tail_ := y, cache_ := c } j = stampOf st j := rfl

theorem hfind_set_htc (st : CacheState K V) (x y : Option Nat) (c : List (K × Nat)) (j : Nat) :
    hfind ({ st with head_ := x, tail_ := y, cache_ := c }).heap j = hfind st.heap j := rfl

theorem remove_hit_pres {st : CacheState K V} {ids : List Nat} (w : WFS st ids)
    {k : K} {i : Nat} (hki : klookup st.cache_ k = some i)
    {l₁ l₂ : List Nat} (hsplit : ids = l₁ ++ i :: l₂) :
    (remove st k).1 = true ∧
      WFS (remove st k).2 (l₁ ++ l₂) ∧
      (stampsOK st ids → stampsOK (remove st k).2 (l₁ ++ l₂)) ∧
      (remove st k).2.cache_ = kerase st.cache_ k ∧
      (remove st k).2.clock = st.clock ∧
      (remove st k).2.capacity_ = st.capacity_ ∧
      (∀ j, keyOf (remove st k).2 j = keyOf st j) ∧
      (∀ j, valOf (remove st k).2 j = valOf st j) := by
  subst hsplit
  obtain ⟨himem, hkeyi⟩ := w.lookup_node hki
  have hlivei := w.live i himem
  obtain ⟨ndi, hndi⟩ := Option.isSome_iff_exists.mp hlivei
  have hkey_ndi : ndi.key_ = k := by
    rw [keyOf, hndi] at hkeyi
    exact Option.some.inj hkeyi
  have hnodup := w.nodup
  rw [List.nodup_append] at hnodup
  obtain ⟨hnd1, hnd2, hdisj⟩ := hnodup
  have hil2 : i ∉ l₂ := (List.nodup_cons.mp hnd2).1
  have hil1 : i ∉ l₁ := fun hin => hdisj hin (List.mem_cons_self i l₂)
  have hdisj2 : ∀ a ∈ l₁, a ∉ l₂ := fun a ha hb => hdisj ha (List.mem_cons_of_mem i hb)
  have hinone : i ∉ l₁ ++ l₂ := by
    rw [List.mem_append]
    rintro (h1 | h1)
    · exact hil1 h1
    · exact hil2 h1
  have hsubl : (l₁ ++ l₂).Sublist (l₁ ++ i :: l₂) :=
    List.Sublist.append_left (List.sublist_cons_self i l₂) l₁
  have hmemf : ∀ j ∈ l₁ ++ i :: l₂, j ≠ i → j ∈ l₁ ++ l₂ := by
    intro j hj hne
    rcases List.mem_append.mp hj with h1 | h1
    · exact List.mem_append.mpr (Or.inl h1)
    · rcases List.mem_cons.mp h1 with rfl | h2
      · exact absurd rfl hne
      · exact List.mem_append.mpr (Or.inr h2)
  have hadj := w.adj
  rw [List.chain'_append] at hadj
  obtain ⟨hc1, hc2, hseam⟩ := hadj
  rw [List.chain'_cons'] at hc2
  cases l₁ with
  | nil =>
    have hheadi : st.head_ = some i := by rw [w.head_eq]; rfl
    have hpnone : ndi.prev_ = none := by
      have hp : prevOf st i = none := w.head_prev
      rw [prevOf, hndi] at hp
      exact hp
    cases l₂ with
    | nil =>
      have htaili : st.tail_ = some i := by rw [w.tail_eq]; rfl
      have hnnone : ndi.next_ = none := by
        have hp : nextOf st i = none := w.tail_next
        rw [nextOf, hndi] at hp
        exact hp
      have hrm : remove st k = (true,
          { updNode st i (fun n => { n with prev_ := none, next_ := none }) with
            tail_ := none, head_ := none, cache_ := kerase st.cache_ k }) := by
        unfold remove
        rw [hki]
        simp [hndi, hpnone, hnnone, htaili, hheadi, hkey_ndi,
          updNode_tail, updNode_head, updNode_cache]
      have hK : ∀ j, keyOf (remove st k).2 j = keyOf st j := by
        intro j
        rw [hrm, keyOf_set_htc, keyOf_upd_pn]
      have hV : ∀ j, valOf (remove st k).2 j = valOf st j := by
        intro j
        rw [hrm, valOf_set_htc, valOf_upd_pn]
      have hS : ∀ j, stampOf (remove st k).2 j = stampOf st j := by
        intro j
        rw [hrm, stampOf_set_htc, stampOf_upd_pn]
      have hcache : (remove st k).2.cache_ = kerase st.cache_ k := by rw [hrm]
      have hclock : (remove st k).2.clock = st.clock := by rw [hrm]; rfl
      have hcap : (remove st k).2.capacity_ = st.capacity_ := by rw [hrm]; rfl
      have hcrash : (remove st k).2.crashed = st.crashed := by rw [hrm]; rfl
      obtain ⟨hidx, hback, hkeysnd, hlen⟩ := idx_after_kerase w
        (fun a ha => hsubl.mem ha) hki hcache hK hinone hmemf
      refine ⟨by rw [hrm], ⟨?_, ?_, ?_, ?_, ?_, ?_, ?_, ?_, hidx, hback, hkeysnd, ?_, ?_⟩,
        ?_, hcache, hclock, hcap, hK, hV⟩
      · rw [hrm]; rfl
      · rw [hrm]; rfl
      · exact List.chain'_nil
      · intro j hj
        simp at hj
      · exact trivial
      · exact trivial
      · simp
      · intro j hj
        simp at hj
      · have hle := w.len_eq
        simp only [List.nil_append, List.length_cons, List.length_nil] at hle
        simp only [List.nil_append, List.length_nil]
        omega
      · rw [hcrash]; exact w.ok
      · intro hs
        exact stamps_transfer hs hsubl hS hclock
    | cons n l₂' =>
      have hAdj_in : Adj st i n := hc2.1 n rfl
      have hnext_i : nextOf st i = some n := hAdj_in.1
      have hprev_n : prevOf st n = some i := hAdj_in.2
      have hnsome : ndi.next_ = some n := by
        rw [nextOf, hndi] at hnext_i
        exact hnext_i
      have hnmem : n ∈ n :: l₂' := List.mem_cons_self n l₂'
      have hni : n ≠ i := fun e => hil2 (e ▸ hnmem)
      have hliven := w.live n (List.mem_append.mpr (Or.inr (List.mem_cons_of_mem i hnmem)))
      obtain ⟨ndn, hndn⟩ := Option.isSome_iff_exists.mp hliven
      obtain ⟨tl, htlv⟩ : ∃ a, (n :: l₂').getLast? = some a :=
        ⟨(n :: l₂').getLast (by simp), List.getLast?_eq_getLast _ _⟩
      have htlmem : tl ∈ n :: l₂' := List.mem_of_mem_getLast? htlv
      have htl0 : st.tail_ = some tl := by
        rw [w.tail_eq]
        simp only [List.nil_append, List.getLast?_cons_cons]
        exact htlv
      have htlne : ¬ st.tail_ = some i := by
        rw [htl0]
        simp only [Option.some.injEq]
        exact fun e => hil2 (e ▸ htlmem)
      have hrm : remove st k = (true,
          { updNode (updNode st i (fun n2 => { n2 with prev_ := none, next_ := none }))
              n (fun nd => { nd with prev_ := none }) with
            head_ := some n, cache_ := kerase st.cache_ k }) := by
        unfold remove
        rw [hki]
        simp [hndi, hpnone, hnsome, htlne, hheadi, hkey_ndi,
          updNode_tail, updNode_head, updNode_cache]
      have hK : ∀ j, keyOf (remove st k).2 j = keyOf st j := by
        intro j
        rw [hrm, keyOf_set_hc, keyOf_upd_prev, keyOf_upd_pn]
      have hV : ∀ j, valOf (remove st k).2 j = valOf st j := by
        intro j
        rw [hrm, valOf_set_hc, valOf_upd_prev, valOf_upd_pn]
      have hS : ∀ j, stampOf (remove st k).2 j = stampOf st j := by
        intro j
        rw [hrm, stampOf_set_hc, stampOf_upd_prev, stampOf_upd_pn]
      have hIs : ∀ j, (hfind (remove st k).2.heap j).isSome = (hfind st.heap j).isSome := by
        intro j
        rw [hrm, hfind_set_hc, live_upd, live_upd]
      have hNfr : ∀ j, j ≠ i → nextOf (remove st k).2 j = nextOf st j := by
        intro j hji
        rw [hrm, nextOf_set_hc, nextOf_upd_prev, nextOf_upd_ne _ _ hji]
      have hfindn1 : hfind (updNode st i
          (fun n2 => { n2 with prev_ := none, next_ := none })).heap n = some ndn := by
        rw [hfind_updNode, if_neg hni]
        exact hndn
      have hP_n : prevOf (remove st k).2 n = none := by
        rw [hrm, prevOf_set_hc, prevOf_upd_self _ _ hfindn1]
      have hPfr : ∀ j, j ≠ i → j ≠ n → prevOf (remove st k).2 j = prevOf st j := by
        intro j hji hjn
        rw [hrm, prevOf_set_hc, prevOf_upd_ne _ _ hjn, prevOf_upd_ne _ _ hji]
      have hcache : (remove st k).2.cache_ = kerase st.cache_ k := by rw [hrm]
      have hclock : (remove st k).2.clock = st.clock := by rw [hrm]; rfl
      have hcap : (remove st k).2.capacity_ = st.capacity_ := by rw [hrm]; rfl
      have hcrash : (remove st k).2.crashed = st.crashed := by rw [hrm]; rfl
      have hnid : (remove st k).2.nextId = st.nextId := by rw [hrm]; rfl
      obtain ⟨hidx, hback, hkeysnd, hlen⟩ := idx_after_kerase w
        (fun a ha => hsubl.mem ha) hki hcache hK hinone hmemf
      refine ⟨by rw [hrm], ⟨?_, ?_, ?_, ?_, ?_, ?_, ?_, ?_, hidx, hback, hkeysnd, ?_, ?_⟩,
        ?_, hcache, hclock, hcap, hK, hV⟩
      · rw [hrm]; rfl
      · have htl2 : (remove st k).2.tail_ = st.tail_ := by rw [hrm]; rfl
        rw [htl2, htl0]
        simp only [List.nil_append, htlv]
      · refine chain'_ext _ ?_ hc2.2
        intro a ha b hb hr
        have hani : a ≠ i := fun e => hil2 (e ▸ ha)
        have hbni : b ≠ i := fun e => hil2 (e ▸ hb)
        refine ⟨by rw [hNfr a hani]; exact hr.1, ?_⟩
        by_cases hbn : b = n
        · exfalso
          have h2 := hr.2
          rw [hbn, hprev_n] at h2
          exact hani (Option.some.inj h2).symm
        · rw [hPfr b hbni hbn]; exact hr.2
      · intro j hj
        rw [hIs]
        exact w.live j (hsubl.mem hj)
      · exact hP_n
      · show optAll ((n :: l₂').getLast?) _
        rw [htlv]
        show nextOf (remove st k).2 tl = none
        have htli : tl ≠ i := fun e => hil2 (e ▸ htlmem)
        rw [hNfr tl htli]
        have hp := w.tail_next
        simp only [List.nil_append, List.getLast?_cons_cons, htlv, optAll] at hp
        exact hp
      · exact List.Nodup.sublist hsubl w.nodup
      · intro j hj
        rw [hnid]
        exact w.fresh j (hsubl.mem hj)
      · have hle := w.len_eq
        simp only [List.nil_append, List.length_cons] at hle ⊢
        omega
      · rw [hcrash]; exact w.ok
      · intro hs
        exact stamps_transfer hs hsubl hS hclock
  | cons h1 l₁' =>
    have hheadh : st.head_ = some h1 := by rw [w.head_eq]; rfl
    have hh1mem : h1 ∈ h1 :: l₁' := List.mem_cons_self h1 l₁'
    have hh1i : h1 ≠ i := fun e => hil1 (e ▸ hh1mem)
    have hheadne : ¬ st.head_ = some i := by
      rw [hheadh]
      simp only [Option.some.injEq]
      exact hh1i
    obtain ⟨pi, hpi⟩ : ∃ a, (h1 :: l₁').getLast? = some a :=
      ⟨(h1 :: l₁').getLast (by simp), List.getLast?_eq_getLast _ _⟩
    have hpimem : pi ∈ h1 :: l₁' := List.mem_of_mem_getLast? hpi
    have hpine : pi ≠ i := fun e => hil1 (e ▸ hpimem)
    have hAdjpii : Adj st pi i := hseam pi hpi i rfl
    have hnext_pi : nextOf st pi = some i := hAdjpii.1
    have hprev_i : prevOf st i = some pi := hAdjpii.2
    have hpsome : ndi.prev_ = some pi := by
      rw [prevOf, hndi] at hprev_i
      exact hprev_i
    have hlivepi := w.live pi (List.mem_append.mpr (Or.inl hpimem))
    obtain ⟨ndpi, hndpi⟩ := Option.isSome_iff_exists.mp hlivepi
    have hheadprev : prevOf st h1 = none := by
      have hp := w.head_prev
      simp only [List.cons_append, List.head?_cons, optAll] at hp
      exact hp
    cases l₂ with
    | nil =>
      have htaili : st.tail_ = some i := by
        rw [w.tail_eq, List.getLast?_concat]
      have hnnone : ndi.next_ = none := by
        have hp := w.tail_next
        rw [List.getLast?_concat] at hp
        have hp2 : nextOf st i = none := hp
        rw [nextOf, hndi] at hp2
        exact hp2
      have hrm : remove st k = (true,
          { updNode (updNode st i (fun n2 => { n2 with prev_ := none, next_ := none }))
              pi (fun nd => { nd with next_ := none }) with
            tail_ := some pi, cache_ := kerase st.cache_ k }) := by
        unfold remove
        rw [hki]
        simp [hndi, hpsome, hnnone, htaili, hheadne, hkey_ndi,
          updNode_tail, updNode_head, updNode_cache]
      have hK : ∀ j, keyOf (remove st k).2 j = keyOf st j := by
        intro j
        rw [hrm, keyOf_set_ct, keyOf_upd_next, keyOf_upd_pn]
      have hV : ∀ j, valOf (remove st k).2 j = valOf st j := by
        intro j
        rw [hrm, valOf_set_ct, valOf_upd_next, valOf_upd_pn]
      have hS : ∀ j, stampOf (remove st k).2 j = stampOf st j := by
        intro j
        rw [hrm, stampOf_set_ct, stampOf_upd_next, stampOf_upd_pn]
      have hIs : ∀ j, (hfind (remove st k).2.heap j).isSome = (hfind st.heap j).isSome := by
        intro j
        rw [hrm, hfind_set_ct, live_upd, live_upd]
      have hPfr : ∀ j, j ≠ i → prevOf (remove st k).2 j = prevOf st j := by
        intro j hji
        rw [hrm, prevOf_set_ct, prevOf_upd_next, prevOf_upd_ne _ _ hji]
      have hfindpi1 : hfind (updNode st i
          (fun n2 => { n2 with prev_ := none, next_ := none })).heap pi = some ndpi := by
        rw [hfind_updNode, if_neg hpine]
        exact hndpi
      have hN_pi : nextOf (remove st k).2 pi = none := by
        rw [hrm, nextOf_set_ct, nextOf_upd_self _ _ hfindpi1]
      have hNfr : ∀ j, j ≠ i → j ≠ pi → nextOf (remove st k).2 j = nextOf st j := by
        intro j hji hjp
        rw [hrm, nextOf_set_ct, nextOf_upd_ne _ _ hjp, nextOf_upd_ne _ _ hji]
      have hcache : (remove st k).2.cache_ = kerase st.cache_ k := by rw [hrm]
      have hclock : (remove st k).2.clock = st.clock := by rw [hrm]; rfl
      have hcap : (remove st k).2.capacity_ = st.capacity_ := by rw [hrm]; rfl
      have hcrash : (remove st k).2.crashed = st.crashed := by rw [hrm]; rfl
      have hnid : (remove st k).2.nextId = st.nextId := by rw [hrm]; rfl
      have hsubl2 : (h1 :: l₁').Sublist ((h1 :: l₁') ++ i :: ([] : List Nat)) := by
        simpa using hsubl
      have hinone2 : i ∉ h1 :: l₁' := hil1
      have hmemf2 : ∀ j ∈ (h1 :: l₁') ++ i :: ([] : List Nat), j ≠ i → j ∈ h1 :: l₁' := by
        intro j hj hne
        simpa using hmemf j hj hne
      obtain ⟨hidx, hback, hkeysnd, hlen⟩ := idx_after_kerase w
        (fun a ha => hsubl2.mem ha) hki hcache hK hinone2 hmemf2
      simp only [List.append_nil]
      refine ⟨by rw [hrm], ⟨?_, ?_, ?_, ?_, ?_, ?_, ?_, ?_, hidx, hback, hkeysnd, ?_, ?_⟩,
        ?_, hcache, hclock, hcap, hK, hV⟩
      · have hhd2 : (remove st k).2.head_ = st.head_ := by rw [hrm]; rfl
        rw [hhd2, hheadh]
        rfl
      · have htl2 : (remove st k).2.tail_ = some pi := by rw [hrm]
        rw [htl2, hpi]
      · refine chain'_ext _ ?_ hc1
        intro a ha b hb hr
        have hani : a ≠ i := fun e => hil1 (e ▸ ha)
        have hbni : b ≠ i := fun e => hil1 (e ▸ hb)
        refine ⟨?_, by rw [hPfr b hbni]; exact hr.2⟩
        by_cases hap : a = pi
        · exfalso
          have h2 := hr.1
          rw [hap, hnext_pi] at h2
          exact hbni (Option.some.inj h2).symm
        · rw [hNfr a hani hap]; exact hr.1
      · intro j hj
        rw [hIs]
        exact w.live j (hsubl2.mem hj)
      · show optAll ((h1 :: l₁').head?) _
        simp only [List.head?_cons, optAll]
        rw [hPfr h1 hh1i]
        exact hheadprev
      · rw [hpi]
        exact hN_pi
      · exact List.Nodup.sublist hsubl2 w.nodup
      · intro j hj
        rw [hnid]
        exact w.fresh j (hsubl2.mem hj)
      · have hle := w.len_eq
        simp only [List.length_append, List.length_cons, List.length_nil] at hle ⊢
        omega
      · rw [hcrash]; exact w.ok
      · intro hs
        exact stamps_transfer hs hsubl2 hS hclock
    | cons n l₂' =>
      have hAdj_in : Adj st i n := hc2.1 n rfl
      have hnext_i : nextOf st i = some n := hAdj_in.1
      have hprev_n : prevOf st n = some i := hAdj_in.2
      have hnsome : ndi.next_ = some n := by
        rw [nextOf, hndi] at hnext_i
        exact hnext_i
      have hnmem : n ∈ n :: l₂' := List.mem_cons_self n l₂'
      have hni : n ≠ i := fun e => hil2 (e ▸ hnmem)
      have hnpi : n ≠ pi := fun e => hdisj2 pi hpimem (e ▸ hnmem)
      have hliven := w.live n (List.mem_append.mpr (Or.inr (List.mem_cons_of_mem i hnmem)))
      obtain ⟨ndn, hndn⟩ := Option.isSome_iff_exists.mp hliven
      obtain ⟨tl, htlv⟩ : ∃ a, (n :: l₂').getLast? = some a :=
        ⟨(n :: l₂').getLast (by simp), List.getLast?_eq_getLast _ _⟩
      have htlmem : tl ∈ n :: l₂' := List.mem_of_mem_getLast? htlv
      have htl0 : st.tail_ = some tl := by
        rw [w.tail_eq, List.getLast?_append_of_ne_nil _ (List.cons_ne_nil i _),
          List.getLast?_cons_cons, htlv]
      have htlne : ¬ st.tail_ = some i := by
        rw [htl0]
        simp only [Option.some.injEq]
        exact fun e => hil2 (e ▸ htlmem)
      have hrm : remove st k = (true,
          { updNode (updNode (updNode st i
              (fun n2 => { n2 with prev_ := none, next_ := none }))
              pi (fun nd => { nd with next_ := some n }))
              n (fun nd => { nd with prev_ := some pi }) with
            cache_ := kerase st.cache_ k }) := by
        unfold remove
        rw [hki]
        simp [hndi, hpsome, hnsome, htlne, hheadne, hkey_ndi,
          updNode_tail, updNode_head, updNode_cache]
      have hK : ∀ j, keyOf (remove st k).2 j = keyOf st j := by
        intro j
        rw [hrm, keyOf_set_c, keyOf_upd_prev, keyOf_upd_next, keyOf_upd_pn]
      have hV : ∀ j, valOf (remove st k).2 j = valOf st j := by
        intro j
        rw [hrm, valOf_set_c, valOf_upd_prev, valOf_upd_next, valOf_upd_pn]
      have hS : ∀ j, stampOf (remove st k).2 j = stampOf st j := by
        intro j
        rw [hrm, stampOf_set_c, stampOf_upd_prev, stampOf_upd_next, stampOf_upd_pn]
      have hIs : ∀ j, (hfind (remove st k).2.heap j).isSome = (hfind st.heap j).isSome := by
        intro j
        rw [hrm, hfind_set_c, live_upd, live_upd, live_upd]
      have hNfr : ∀ j, j ≠ i → j ≠ pi → nextOf (remove st k).2 j = nextOf st j := by
        intro j hji hjp
        rw [hrm, nextOf_set_c, nextOf_upd_prev, nextOf_upd_ne _ _ hjp,
          nextOf_upd_ne _ _ hji]
      have hPfr : ∀ j, j ≠ i → j ≠ n → prevOf (remove st k).2 j = prevOf st j := by
        intro j hji hjn
        rw [hrm, prevOf_set_c, prevOf_upd_ne _ _ hjn, prevOf_upd_next,
          prevOf_upd_ne _ _ hji]
      have hfindpi1 : hfind (updNode st i
          (fun n2 => { n2 with prev_ := none, next_ := none })).heap pi = some ndpi := by
        rw [hfind_updNode, if_neg hpine]
        exact hndpi
      have hN_pi : nextOf (remove st k).2 pi = some n := by
        rw [hrm, nextOf_set_c, nextOf_upd_prev, nextOf_upd_self _ _ hfindpi1]
      have hfindn2 : hfind (updNode (updNode st i
          (fun n2 => { n2 with prev_ := none, next_ := none }))
          pi (fun nd => { nd with next_ := some n })).heap n = some ndn := by
        rw [hfind_updNode, if_neg hnpi, hfind_updNode, if_neg hni]
        exact hndn
      have hP_n : prevOf (remove st k).2 n = some pi := by
        rw [hrm, prevOf_set_c, prevOf_upd_self _ _ hfindn2]
      have hcache : (remove st k).2.cache_ = kerase st.cache_ k := by rw [hrm]
      have hclock : (remove st k).2.clock = st.clock := by rw [hrm]; rfl
      have hcap : (remove st k).2.capacity_ = st.capacity_ := by rw [hrm]; rfl
      have hcrash : (remove st k).2.crashed = st.crashed := by rw [hrm]; rfl
      have hnid : (remove st k).2.nextId = st.nextId := by rw [hrm]; rfl
      obtain ⟨hidx, hback, hkeysnd, hlen⟩ := idx_after_kerase w
        (fun a ha => hsubl.mem ha) hki hcache hK hinone hmemf
      refine ⟨by rw [hrm], ⟨?_, ?_, ?_, ?_, ?_, ?_, ?_, ?_, hidx, hback, hkeysnd, ?_, ?_⟩,
        ?_, hcache, hclock, hcap, hK, hV⟩
      · rw [hrm]
        show st.head_ = ((h1 :: l₁') ++ n :: l₂').head?
        rw [hheadh]
        rfl
      · rw [hrm]
        show st.tail_ = ((h1 :: l₁') ++ n :: l₂').getLast?
        rw [htl0, List.getLast?_append_of_ne_nil _ (List.cons_ne_nil n _), htlv]
      · rw [List.chain'_append]
        refine ⟨?_, ?_, ?_⟩
        · refine chain'_ext _ ?_ hc1
          intro a ha b hb hr
          have hani : a ≠ i := fun e => hil1 (e ▸ ha)
          have hbni : b ≠ i := fun e => hil1 (e ▸ hb)
          have hbnn : b ≠ n := fun e => hdisj2 b hb (e ▸ hnmem)
          refine ⟨?_, by rw [hPfr b hbni hbnn]; exact hr.2⟩
          by_cases hap : a = pi
          · exfalso
            have h2 := hr.1
            rw [hap, hnext_pi] at h2
            exact hbni (Option.some.inj h2).symm
          · rw [hNfr a hani hap]; exact hr.1
        · refine chain'_ext _ ?_ hc2.2
          intro a ha b hb hr
          have hani : a ≠ i := fun e => hil2 (e ▸ ha)
          have hbni : b ≠ i := fun e => hil2 (e ▸ hb)
          have hanpi : a ≠ pi := fun e => hdisj2 pi hpimem (e ▸ ha)
          refine ⟨by rw [hNfr a hani hanpi]; exact hr.1, ?_⟩
          by_cases hbn : b = n
          · exfalso
            have h2 := hr.2
            rw [hbn, hprev_n] at h2
            exact hani (Option.some.inj h2).symm
          · rw [hPfr b hbni hbn]; exact hr.2
        · intro x hx y hy
          rw [hpi] at hx
          simp only [Option.mem_def, Option.some.injEq] at hx
          simp only [List.head?_cons, Option.mem_def, Option.some.injEq] at hy
          subst hx
          subst hy
          exact ⟨hN_pi, hP_n⟩
      · intro j hj
        rw [hIs]
        exact w.live j (hsubl.mem hj)
      · show optAll (((h1 :: l₁') ++ n :: l₂').head?) _
        simp only [List.cons_append, List.head?_cons, optAll]
        have hh1n : h1 ≠ n := fun e => hdisj2 h1 hh1mem (e ▸ hnmem)
        rw [hPfr h1 hh1i hh1n]
        exact hheadprev
      · show optAll (((h1 :: l₁') ++ n :: l₂').getLast?) _
        rw [List.getLast?_append_of_ne_nil _ (List.cons_ne_nil n _), htlv]
        show nextOf (remove st k).2 tl = none
        have htli : tl ≠ i := fun e => hil2 (e ▸ htlmem)
        have htlpi : tl ≠ pi := fun e => hdisj2 pi hpimem (e ▸ htlmem)
        rw [hNfr tl htli htlpi]
        have hp := w.tail_next
        rw [List.getLast?_append_of_ne_nil _ (List.cons_ne_nil i _),
          List.getLast?_cons_cons, htlv] at hp
        exact hp
      · exact List.Nodup.sublist hsubl w.nodup
      · intro j hj
        rw [hnid]
        exact w.fresh j (hsubl.mem hj)
      · have hle := w.len_eq
        simp only [List.length_append, List.length_cons] at hle ⊢
        omega
      · rw [hcrash]; exact w.ok
      · intro hs
        exact stamps_transfer hs hsubl hS hclock

theorem clearLoop_spec : ∀ (ids : List Nat) (st : CacheState K V) (fuel : Nat),
    st.head_ = ids.head? →
    List.Chain' (Adj st) ids →
    (∀ i ∈ ids, (hfind st.heap i).isSome = true) →
    optAll ids.getLast? (fun i => nextOf st i = none) →
    ids.Nodup →
    ids.length ≤ fuel →
    (clearLoop fuel st).head_ = none ∧
      (clearLoop fuel st).tail_ = st.tail_ ∧
      (clearLoop fuel st).cache_ = st.cache_ ∧
      (clearLoop fuel st).clock = st.clock ∧
      (clearLoop fuel st).capacity_ = st.capacity_ ∧
      (clearLoop fuel st).nextId = st.nextId ∧
      (clearLoop fuel st).crashed = st.crashed ∧
      (∀ j, hfind (clearLoop fuel st).heap j =
        if j ∈ ids then (hfind st.heap j).map clearPtrs else hfind st.heap j) := by
  intro ids
  induction ids with
  | nil =>
    intro st fuel hhead _ _ _ _ _
    have hh : st.head_ = none := hhead
    cases fuel with
    | zero =>
      have he : clearLoop 0 st = st := by simp only [clearLoop, hh]
      rw [he]
      exact ⟨hh, rfl, rfl, rfl, rfl, rfl, rfl, fun j => by simp⟩
    | succ f =>
      have he : clearLoop (f + 1) st = st := by simp only [clearLoop, hh]
      rw [he]
      exact ⟨hh, rfl, rfl, rfl, rfl, rfl, rfl, fun j => by simp⟩
  | cons h rest ih =>
    intro st fuel hhead hadj hlive htn hnodup hfuel
    have hh : st.head_ = some h := hhead
    cases fuel with
    | zero => simp at hfuel
    | succ f =>
      have hnr : h ∉ rest := (List.nodup_cons.mp hnodup).1
      have hrest_nd : rest.Nodup := (List.nodup_cons.mp hnodup).2
      have hnext_h : nextOf st h = rest.head? := by
        cases rest with
        | nil =>
          have hn := htn
          simp only [List.getLast?_singleton, optAll] at hn
          rw [hn]
          rfl
        | cons r rest' =>
          rw [List.chain'_cons] at hadj
          exact hadj.1.1
      have hloopeq : clearLoop (f + 1) st =
          clearLoop f { updNode st h clearPtrs with head_ := nextOf st h } := by
        simp only [clearLoop, hh]
      set st2 : CacheState K V := { updNode st h clearPtrs with head_ := nextOf st h }
        with hst2
      have hnext2 : ∀ j, j ≠ h → nextOf st2 j = nextOf st j := by
        intro j hj
        rw [hst2, nextOf_set_head, nextOf_upd_ne _ _ hj]
      have hprev2 : ∀ j, j ≠ h → prevOf st2 j = prevOf st j := by
        intro j hj
        rw [hst2, prevOf_set_head, prevOf_upd_ne _ _ hj]
      have hlive2 : ∀ j, (hfind st2.heap j).isSome = (hfind st.heap j).isSome := by
        intro j
        rw [hst2, hfind_set_head, live_upd]
      have hfind2 : ∀ j, hfind st2.heap j =
          if j = h then (hfind st.heap j).map clearPtrs else hfind st.heap j := by
        intro j
        rw [hst2, hfind_set_head, hfind_updNode]
        by_cases hj : j = h
        · subst hj
          simp
        · simp [hj]
      have hchain2 : List.Chain' (Adj st2) rest := by
        refine chain'_ext _ ?_ ((List.chain'_cons'.mp hadj).2)
        intro a ha b hb hr
        have hah : a ≠ h := fun e => hnr (e ▸ ha)
        have hbh : b ≠ h := fun e => hnr (e ▸ hb)
        exact ⟨by rw [hnext2 a hah]; exact hr.1, by rw [hprev2 b hbh]; exact hr.2⟩
      have htn2 : optAll rest.getLast? (fun i => nextOf st2 i = none) := by
        cases hg : rest.getLast? with
        | none => trivial
        | some a =>
          have ha : a ∈ rest := List.mem_of_mem_getLast? hg
          have hah : a ≠ h := fun e => hnr (e ▸ ha)
          show nextOf st2 a = none
          rw [hnext2 a hah]
          have hn := htn
          cases rest with
          | nil => simp at hg
          | cons r rest' =>
            rw [List.getLast?_cons_cons, hg] at hn
            exact hn
      have ih2 := ih st2 f
        (by rw [hst2]; exact hnext_h)
        hchain2
        (fun j hj => by
          rw [hlive2]
          exact hlive j (List.mem_cons_of_mem h hj))
        htn2
        hrest_nd
        (by
          simp only [List.length_cons] at hfuel
          omega)
      rw [hloopeq]
      obtain ⟨c1, c2, c3, c4, c5, c6, c7, c8⟩ := ih2
      refine ⟨c1, by rw [c2, hst2]; rfl, by rw [c3, hst2]; rfl, by rw [c4, hst2]; rfl,
        by rw [c5, hst2]; rfl, by rw [c6, hst2]; rfl, by rw [c7, hst2]; rfl, ?_⟩
      intro j
      rw [c8 j, hfind2 j]
      by_cases hjh : j = h
      · subst hjh
        rw [if_neg hnr, if_pos rfl, if_pos (List.mem_cons_self j rest)]
      · by_cases hjr : j ∈ rest
        · rw [if_pos hjr, if_neg hjh, if_pos (List.mem_cons_of_mem h hjr)]
        · rw [if_neg hjr, if_neg hjh,
            if_neg (fun hc => by rcases List.mem_cons.mp hc with e | e
                                 exact hjh e
                                 exact hjr e)]

theorem clear_pres {st : CacheState K V} {ids : List Nat} (w : WFS st ids) :
    WFS (clear st) [] ∧ stampsOK (clear st) [] ∧
      (clear st).cache_ = [] ∧ (clear st).head_ = none ∧ (clear st).tail_ = none ∧
      (clear st).capacity_ = st.capacity_ ∧
      (∀ i ∈ ids, prevOf (clear st) i = none ∧ nextOf (clear st) i = none) := by
  have hfuel : ids.length ≤ st.heap.length := ids_length_le w.nodup w.live
  obtain ⟨c1, c2, c3, c4, c5, c6, c7, c8⟩ := clearLoop_spec ids st st.heap.length
    w.head_eq w.adj w.live w.tail_next w.nodup hfuel
  have hhd : (clear st).head_ = none := c1
  have htl : (clear st).tail_ = none := rfl
  have hca : (clear st).cache_ = [] := rfl
  have hcap : (clear st).capacity_ = st.capacity_ := c5
  have hclk : (clear st).clock = st.clock := c4
  have hcr : (clear st).crashed = st.crashed := c7
  have hfd : ∀ j, hfind (clear st).heap j =
      if j ∈ ids then (hfind st.heap j).map clearPtrs else hfind st.heap j := c8
  refine ⟨⟨hhd, htl, List.chain'_nil, ?_, trivial, trivial, List.nodup_nil, ?_,
    ?_, ?_, by rw [hca]; exact List.nodup_nil, by rw [hca]; rfl,
    by rw [hcr]; exact w.ok⟩, ⟨?_, List.Pairwise.nil⟩, hca, hhd, htl, hcap, ?_⟩
  · intro j hj
    simp at hj
  · intro j hj
    simp at hj
  · intro p hp
    rw [hca] at hp
    simp at hp
  · intro j hj
    simp at hj
  · intro j hj
    simp at hj
  · intro i hi
    have hl := w.live i hi
    obtain ⟨nd, hnd⟩ := Option.isSome_iff_exists.mp hl
    constructor
    · rw [prevOf, hfd i, if_pos hi, hnd]
      rfl
    · rw [nextOf, hfd i, if_pos hi, hnd]
      rfl

theorem WFS.setval_pres {st : CacheState K V} {ids : List Nat} (w : WFS st ids)
    (i : Nat) (v : V) : WFS (updNode st i (fun nd => { nd with value_ := v })) ids := by
  refine ⟨w.head_eq, w.tail_eq, ?_, ?_, ?_, ?_, w.nodup, w.fresh, ?_, ?_,
    w.keys_nodup, w.len_eq, w.ok⟩
  · refine chain'_ext ids ?_ w.adj
    intro a _ b _ hr
    exact ⟨by rw [nextOf_upd_value]; exact hr.1, by rw [prevOf_upd_value]; exact hr.2⟩
  · intro j hj
    rw [live_upd]
    exact w.live j hj
  · cases hh : ids.head? with
    | none => trivial
    | some a =>
      have hp := w.head_prev
      rw [hh] at hp
      show prevOf _ a = none
      rw [prevOf_upd_value]
      exact hp
  · cases hh : ids.getLast? with
    | none => trivial
    | some a =>
      have hp := w.tail_next
      rw [hh] at hp
      show nextOf _ a = none
      rw [nextOf_upd_value]
      exact hp
  · intro p hp
    rcases w.idx_mem p hp with ⟨h1, h2⟩
    exact ⟨h1, by rw [keyOf_upd_value]; exact h2⟩
  · intro j hj
    rw [keyOf_upd_value]
    exact w.backref j hj

theorem stampsOK_setval {st : CacheState K V} {ids : List Nat} (hs : stampsOK st ids)
    (i : Nat) (v : V) : stampsOK (updNode st i (fun nd => { nd with value_ := v })) ids := by
  constructor
  · intro j hj
    rw [stampOf_upd_value]
    exact hs.1 j hj
  · refine List.Pairwise.imp_of_mem ?_ hs.2
    intro a b _ _ hr
    rw [stampOf_upd_value, stampOf_upd_value]
    exact hr

theorem valOf_upd_self (st : CacheState K V) (f : Node K V → Node K V) {i : Nat}
    {nd : Node K V} (h : hfind st.heap i = some nd) :
    valOf (updNode st i f) i = some (f nd).value_ := by
  simp [valOf, hfind_updNode, h]

theorem get_miss {st : CacheState K V} {k : K} (h : klookup st.cache_ k = none) :
    ThreadSafeCache.get st k = (none, st) := by
  unfold ThreadSafeCache.get
  rw [h]

theorem remove_miss {st : CacheState K V} {k : K} (h : klookup st.cache_ k = none) :
    remove st k = (false, st) := by
  unfold remove
  rw [h]

theorem get_hit_pres {st : CacheState K V} {ids : List Nat} (hw : WF st ids)
    {k : K} {i : Nat} (hki : klookup st.cache_ k = some i) :
    (ThreadSafeCache.get st k).1 = valOf st i ∧
      ∃ l₁ l₂, ids = l₁ ++ i :: l₂ ∧
        WF (ThreadSafeCache.get st k).2 (i :: (l₁ ++ l₂)) ∧
        (ThreadSafeCache.get st k).2.cache_ = st.cache_ ∧
        (ThreadSafeCache.get st k).2.head_ = some i ∧
        (ThreadSafeCache.get st k).2.capacity_ = st.capacity_ ∧
        (∀ j, keyOf (ThreadSafeCache.get st k).2 j = keyOf st j) ∧
        (∀ j, valOf (ThreadSafeCache.get st k).2 j = valOf st j) := by
  obtain ⟨w, hs⟩ := hw
  obtain ⟨himem, hkeyi⟩ := w.lookup_node hki
  have hlivei := w.live i himem
  obtain ⟨ndi, hndi⟩ := Option.isSome_iff_exists.mp hlivei
  obtain ⟨l₁, l₂, hsplit⟩ := List.append_of_mem himem
  have hgeq : ThreadSafeCache.get st k = (some ndi.value_, move_to_front (touch st i) i) := by
    unfold ThreadSafeCache.get
    rw [hki]
    simp only [hndi]
  have wT : WFS (touch st i) ids := w.touch_pres i
  obtain ⟨wM, hcache, hclock, hcap, hK, hV, hS, hhd⟩ := mtf_pres wT hsplit
  have hsubl : (l₁ ++ l₂).Sublist ids := by
    rw [hsplit]
    exact List.Sublist.append_left (List.sublist_cons_self i l₂) l₁
  have hinotin : i ∉ l₁ ++ l₂ := by
    have hnd := w.nodup
    rw [hsplit, List.nodup_append] at hnd
    obtain ⟨_, hnd2, hdisj⟩ := hnd
    rw [List.mem_append]
    rintro (h1 | h1)
    · exact hdisj h1 (List.mem_cons_self i l₂)
    · exact (List.nodup_cons.mp hnd2).1 h1
  have hstampfr : ∀ j ∈ l₁ ++ l₂, stampOf (move_to_front (touch st i) i) j = stampOf st j := by
    intro j hj
    have hjne : j ≠ i := fun e => hinotin (by rw [← e]; exact hj)
    rw [hS j, touch_stampOf_ne st hjne]
  have hstampi : stampOf (move_to_front (touch st i) i) i = st.clock := by
    rw [hS i, touch_stampOf_self st hndi]
  have hclk : (move_to_front (touch st i) i).clock = st.clock + 1 := by
    rw [hclock]
    rfl
  have hsOK : stampsOK (move_to_front (touch st i) i) (i :: (l₁ ++ l₂)) := by
    constructor
    · intro j hj
      rcases List.mem_cons.mp hj with rfl | hj2
      · rw [hstampi, hclk]
        omega
      · rw [hstampfr j hj2, hclk]
        have := hs.1 j (hsubl.mem hj2)
        omega
    · rw [List.pairwise_cons]
      constructor
      · intro j hj
        rw [hstampfr j hj, hstampi]
        exact hs.1 j (hsubl.mem hj)
      · refine List.Pairwise.imp_of_mem ?_ (hs.2.sublist hsubl)
        intro a b ha hb hr
        rw [hstampfr a ha, hstampfr b hb]
        exact hr
  rw [hgeq]
  refine ⟨by rw [valOf, hndi], l₁, l₂, hsplit, ⟨wM, hsOK⟩, by rw [hcache]; rfl, hhd,
    by rw [hcap]; rfl, ?_, ?_⟩
  · intro j
    rw [hK j, touch_keyOf]
  · intro j
    rw [hV j, touch_valOf]

theorem pushFront_fields {st : CacheState K V} {ids : List Nat} (w : WFS st ids)
    (k : K) (v : V) :
    (pushFront st k v).cache_ = (k, st.nextId) :: st.cache_ ∧
      (pushFront st k v).capacity_ = st.capacity_ ∧
      (pushFront st k v).crashed = st.crashed ∧
      (pushFront st k v).head_ = some st.nextId ∧
      valOf (pushFront st k v) st.nextId = some v ∧
      (∀ j ∈ ids, keyOf (pushFront st k v) j = keyOf st j) := by
  cases ids with
  | nil =>
    have hh : st.head_ = none := by simpa using w.head_eq
    rw [pushFront_none st k v hh]
    refine ⟨rfl, rfl, rfl, rfl, by simp [valOf, hfind], ?_⟩
    intro j hj
    simp at hj
  | cons h t =>
    have hh : st.head_ = some h := by simpa using w.head_eq
    have hne : st.nextId ≠ h := fun e => w.nextId_not_mem (e ▸ List.mem_cons_self h t)
    have hlh := w.live h (List.mem_cons_self h t)
    obtain ⟨hnd, hhnd⟩ := Option.isSome_iff_exists.mp hlh
    rw [pushFront_some st k v hh hne]
    refine ⟨rfl, rfl, rfl, rfl, by simp [valOf, hfind], ?_⟩
    intro j hj
    have hjne : j ≠ st.nextId := fun e => w.nextId_not_mem (e ▸ hj)
    have hjne' : ¬ st.nextId = j := fun e => hjne e.symm
    by_cases hjh : j = h
    · subst hjh
      simp [keyOf, hfind, hjne', hfind_hupd, hhnd]
    · simp [keyOf, hfind, hjne', hfind_hupd, hjh]

theorem put_new_pres {st : CacheState K V} {ids : List Nat} (hw : WF st ids)
    (hsz : st.cache_.length ≤ st.capacity_) (hcap : 0 < st.capacity_)
    {k : K} (hk : klookup st.cache_ k = none) (v : V) :
    ∃ ids2, WF (put st k v) ids2 ∧
      (put st k v).capacity_ = st.capacity_ ∧
      (put st k v).crashed = false ∧
      (put st k v).cache_.length ≤ st.capacity_ ∧
      klookup (put st k v).cache_ k = some st.nextId ∧
      valOf (put st k v) st.nextId = some v ∧
      (put st k v).head_ = some st.nextId ∧
      (st.cache_.length < st.capacity_ →
        (put st k v).cache_ = (k, st.nextId) :: st.cache_) ∧
      (st.cache_.length = st.capacity_ →
        ∃ tk, tailKey st = some tk ∧
          klookup (put st k v).cache_ tk = none ∧
          (∀ k2, k2 ≠ k → k2 ≠ tk →
            klookup (put st k v).cache_ k2 = klookup st.cache_ k2) ∧
          (put st k v).cache_.length = st.capacity_) := by
  obtain ⟨w, hs⟩ := hw
  have hput : put st k v = evictIfOver (pushFront st k v) := by
    unfold put
    rw [hk]
  obtain ⟨w1, hs1f⟩ := pushFront_pres w hk v
  have hs1 := hs1f hs
  obtain ⟨hf_cache, hf_cap, hf_crash, hf_head, hf_val, hf_key⟩ := pushFront_fields w k v
  rcases Nat.lt_or_ge st.cache_.length st.capacity_ with hlt | hge
  · -- no eviction
    have hno : ¬ (pushFront st k v).cache_.length > (pushFront st k v).capacity_ := by
      rw [hf_cache, hf_cap]
      simp only [List.length_cons, gt_iff_lt, not_lt]
      omega
    have hev : evictIfOver (pushFront st k v) = pushFront st k v := by
      unfold evictIfOver
      rw [if_neg hno]
    rw [hput, hev]
    refine ⟨st.nextId :: ids, ⟨w1, hs1⟩, hf_cap, by rw [hf_crash]; exact w.ok, ?_,
      by rw [hf_cache]; simp [klookup], hf_val, hf_head, fun _ => hf_cache, ?_⟩
    · rw [hf_cache]
      simp only [List.length_cons]
      omega
    · intro he
      omega
  · -- full: eviction fires
    have heq : st.cache_.length = st.capacity_ := le_antisymm hsz hge
    have hidsne : ids ≠ [] := by
      intro he
      have hl := w.len_eq
      rw [he] at hl
      simp only [List.length_nil] at hl
      omega
    obtain ⟨l0, t, hconc⟩ : ∃ l0 t, ids = l0 ++ [t] := by
      rcases List.eq_nil_or_concat ids with he | ⟨l0, t, he⟩
      · exact absurd he hidsne
      · exact ⟨l0, t, by rw [he, List.concat_eq_append]⟩
    have hsplit1 : st.nextId :: ids = (st.nextId :: l0) ++ [t] := by
      rw [hconc]
      rfl
    have hover : (pushFront st k v).cache_.length > (pushFront st k v).capacity_ := by
      rw [hf_cache, hf_cap]
      simp only [List.length_cons, gt_iff_lt]
      omega
    obtain ⟨wE, hsEf, ⟨tk, htk, hcacheE⟩, hheadE, hclockE, hcapE, hKE, hVE⟩ :=
      evict_pres w1 hsplit1 (List.cons_ne_nil _ _) hover
    have htmem : t ∈ ids := by
      rw [hconc]
      exact List.mem_append.mpr (Or.inr (List.mem_cons_self t []))
    have htne : t ≠ st.nextId := fun e => w.nextId_not_mem (e ▸ htmem)
    have hkeyt : keyOf st t = some tk := by
      rw [← hf_key t htmem]
      exact htk
    have hklt : klookup st.cache_ tk = some t := by
      have hb := w.backref t htmem
      rw [hkeyt] at hb
      simpa using hb
    have htknek : tk ≠ k := by
      intro e
      rw [e, hk] at hklt
      exact Option.noConfusion hklt
    have htail : st.tail_ = some t := by
      rw [w.tail_eq, hconc, List.getLast?_concat]
    have htailkey : tailKey st = some tk := by
      rw [tailKey, htail]
      exact hkeyt
    have hlenE : (evictIfOver (pushFront st k v)).cache_.length = st.capacity_ := by
      rw [wE.len_eq]
      have hle := w.len_eq
      rw [hconc, List.length_append, List.length_singleton] at hle
      simp only [List.length_cons]
      omega
    rw [hput]
    refine ⟨st.nextId :: l0, ⟨wE, hsEf hs1⟩, by rw [hcapE]; exact hf_cap, wE.ok,
      le_of_eq hlenE, ?_, by rw [hVE]; exact hf_val, by rw [hheadE]; exact hf_head,
      ?_, ?_⟩
    · rw [hcacheE, klookup_kerase_ne (Ne.symm htknek), hf_cache]
      simp [klookup]
    · intro hlt2
      exact ((Nat.lt_irrefl _ (heq ▸ hlt2)).elim)
    · intro _
      refine ⟨tk, htailkey, ?_, ?_, hlenE⟩
      · rw [hcacheE]
        exact klookup_kerase_self w1.keys_nodup
      · intro k2 h2k h2tk
        rw [hcacheE, klookup_kerase_ne h2tk, hf_cache]
        have hcond : ¬ ((k, st.nextId).1 = k2) := fun e => h2k (by simpa using e.symm)
        simp only [klookup, if_neg hcond]

theorem put_exists_pres {st : CacheState K V} {ids : List Nat} (hw : WF st ids)
    (hsz : st.cache_.length ≤ st.capacity_)
    {k : K} {i : Nat} (hki : klookup st.cache_ k = some i) (v : V) :
    ∃ l₁ l₂, ids = l₁ ++ i :: l₂ ∧
      WF (put st k v) (i :: (l₁ ++ l₂)) ∧
      (put st k v).cache_ = st.cache_ ∧
      (put st k v).capacity_ = st.capacity_ ∧
      (put st k v).head_ = some i ∧
      valOf (put st k v) i = some v := by
  obtain ⟨w, hs⟩ := hw
  obtain ⟨himem, hkeyi⟩ := w.lookup_node hki
  have hlivei := w.live i himem
  obtain ⟨ndi, hndi⟩ := Option.isSome_iff_exists.mp hlivei
  obtain ⟨l₁, l₂, hsplit⟩ := List.append_of_mem himem
  have wv : WFS (updNode st i (fun nd => { nd with value_ := v })) ids := w.setval_pres i v
  have hsv : stampsOK (updNode st i (fun nd => { nd with value_ := v })) ids :=
    stampsOK_setval hs i v
  have wT : WFS (touch (updNode st i (fun nd => { nd with value_ := v })) i) ids :=
    wv.touch_pres i
  obtain ⟨wM, hcache, hclock, hcap, hK, hV, hS, hhd⟩ := mtf_pres wT hsplit
  have hput : put st k v =
      evictIfOver (move_to_front
        (touch (updNode st i (fun nd => { nd with value_ := v })) i) i) := by
    unfold put
    rw [hki]
  have hcch : (move_to_front
      (touch (updNode st i (fun nd => { nd with value_ := v })) i) i).cache_ =
      st.cache_ := by
    rw [hcache]
    rfl
  have hccap : (move_to_front
      (touch (updNode st i (fun nd => { nd with value_ := v })) i) i).capacity_ =
      st.capacity_ := by
    rw [hcap]
    rfl
  have hno : ¬ (move_to_front
      (touch (updNode st i (fun nd => { nd with value_ := v })) i) i).cache_.length >
      (move_to_front
      (touch (updNode st i (fun nd => { nd with value_ := v })) i) i).capacity_ := by
    rw [hcch, hccap]
    omega
  have hev : put st k v =
      move_to_front (touch (updNode st i (fun nd => { nd with value_ := v })) i) i := by
    rw [hput]
    unfold evictIfOver
    rw [if_neg hno]
  have hsubl : (l₁ ++ l₂).Sublist ids := by
    rw [hsplit]
    exact List.Sublist.append_left (List.sublist_cons_self i l₂) l₁
  have hinotin : i ∉ l₁ ++ l₂ := by
    have hnd := w.nodup
    rw [hsplit, List.nodup_append] at hnd
    obtain ⟨_, hnd2, hdisj⟩ := hnd
    rw [List.mem_append]
    rintro (h1 | h1)
    · exact hdisj h1 (List.mem_cons_self i l₂)
    · exact (List.nodup_cons.mp hnd2).1 h1
  have hndiv : hfind (updNode st i (fun nd => { nd with value_ := v })).heap i =
      some { ndi with value_ := v } := by
    rw [hfind_updNode]
    simp [hndi]
  have hstampfr : ∀ j ∈ l₁ ++ l₂,
      stampOf (move_to_front
        (touch (updNode st i (fun nd => { nd with value_ := v })) i) i) j =
      stampOf st j := by
    intro j hj
    have hjne : j ≠ i := fun e => hinotin (by rw [← e]; exact hj)
    rw [hS j, touch_stampOf_ne _ hjne, stampOf_upd_value]
  have hstampi : stampOf (move_to_front
      (touch (updNode st i (fun nd => { nd with value_ := v })) i) i) i = st.clock := by
    rw [hS i, touch_stampOf_self _ hndiv]
    rfl
  have hclk : (move_to_front
      (touch (updNode st i (fun nd => { nd with value_ := v })) i) i).clock =
      st.clock + 1 := by
    rw [hclock]
    rfl
  have hsOK : stampsOK (move_to_front
      (touch (updNode st i (fun nd => { nd with value_ := v })) i) i)
      (i :: (l₁ ++ l₂)) := by
    constructor
    · intro j hj
      rcases List.mem_cons.mp hj with rfl | hj2
      · rw [hstampi, hclk]
        omega
      · rw [hstampfr j hj2, hclk]
        have := hs.1 j (hsubl.mem hj2)
        omega
    · rw [List.pairwise_cons]
      constructor
      · intro j hj
        rw [hstampfr j hj, hstampi]
        exact hs.1 j (hsubl.mem hj)
      · refine List.Pairwise.imp_of_mem ?_ (hs.2.sublist hsubl)
        intro a b ha hb hr
        rw [hstampfr a ha, hstampfr b hb]
        exact hr
  rw [hev]
  refine ⟨l₁, l₂, hsplit, ⟨wM, hsOK⟩, hcch, hccap, hhd, ?_⟩
  rw [hV i, touch_valOf, valOf_upd_self _ _ hndi]

theorem init_WF (C : Nat) : WF (init C : CacheState K V) [] := by
  refine ⟨⟨rfl, rfl, List.chain'_nil, ?_, trivial, trivial, List.nodup_nil, ?_, ?_, ?_,
    List.nodup_nil, rfl, rfl⟩, ?_, List.Pairwise.nil⟩
  · intro j hj
    simp at hj
  · intro j hj
    simp at hj
  · intro p hp
    simp [init] at hp
  · intro j hj
    simp at hj
  · intro j hj
    simp at hj

theorem init_Inv (C : Nat) : Inv (init C : CacheState K V) :=
  ⟨[], init_WF C, Nat.zero_le C⟩

theorem step_pres {st : CacheState K V} (h : Inv st) (hcap : 0 < st.capacity_)
    (op : Op K V) : Inv (step st op) ∧ (step st op).capacity_ = st.capacity_ := by
  obtain ⟨ids, hw, hsz⟩ := h
  cases op with
  | getOp k =>
    show Inv (ThreadSafeCache.get st k).2 ∧ (ThreadSafeCache.get st k).2.capacity_ = _
    cases hk : klookup st.cache_ k with
    | none =>
      rw [get_miss hk]
      exact ⟨⟨ids, hw, hsz⟩, rfl⟩
    | some i =>
      obtain ⟨_, l₁, l₂, hsplit, hWF, hcache, _, hcap2, _, _⟩ := get_hit_pres hw hk
      refine ⟨⟨i :: (l₁ ++ l₂), hWF, ?_⟩, hcap2⟩
      rw [hcache, hcap2]
      exact hsz
  | putOp k v =>
    show Inv (put st k v) ∧ (put st k v).capacity_ = _
    cases hk : klookup st.cache_ k with
    | none =>
      obtain ⟨ids2, hWF, hcap2, _, hlen, _, _, _, _, _⟩ := put_new_pres ⟨hw.1, hw.2⟩ hsz hcap hk v
      exact ⟨⟨ids2, hWF, by rw [hcap2]; exact hlen⟩, hcap2⟩
    | some i =>
      obtain ⟨l₁, l₂, hsplit, hWF, hcache, hcap2, _, _⟩ := put_exists_pres hw hsz hk v
      exact ⟨⟨_, hWF, by rw [hcache, hcap2]; exact hsz⟩, hcap2⟩
  | removeOp k =>
    show Inv (remove st k).2 ∧ (remove st k).2.capacity_ = _
    cases hk : klookup st.cache_ k with
    | none =>
      rw [remove_miss hk]
      exact ⟨⟨ids, hw, hsz⟩, rfl⟩
    | some i =>
      obtain ⟨himem, _⟩ := hw.1.lookup_node hk
      obtain ⟨l₁, l₂, hsplit⟩ := List.append_of_mem himem
      obtain ⟨_, hWFS, hstf, hcache, _, hcap2, _, _⟩ := remove_hit_pres hw.1 hk hsplit
      refine ⟨⟨l₁ ++ l₂, ⟨hWFS, hstf hw.2⟩, ?_⟩, hcap2⟩
      have hle := hWFS.len_eq
      have hle2 := hw.1.len_eq
      rw [hsplit] at hle2
      rw [hcap2]
      simp only [List.length_append, List.length_cons] at hle hle2
      omega
  | clearOp =>
    show Inv (clear st) ∧ (clear st).capacity_ = _
    obtain ⟨cWFS, cStamps, hca, _, _, hcap2, _⟩ := clear_pres hw.1
    refine ⟨⟨[], ⟨cWFS, cStamps⟩, ?_⟩, hcap2⟩
    rw [hca]
    exact Nat.zero_le _
  | containsOp k => exact ⟨⟨ids, hw, hsz⟩, rfl⟩
  | sizeOp => exact ⟨⟨ids, hw, hsz⟩, rfl⟩

theorem run_pres : ∀ (ops : List (Op K V)) (st : CacheState K V), Inv st →
    0 < st.capacity_ →
    Inv (run st ops) ∧ (run st ops).capacity_ = st.capacity_ := by
  intro ops
  induction ops with
  | nil =>
    intro st h _
    exact ⟨h, rfl⟩
  | cons op rest ih =>
    intro st h hcap
    obtain ⟨h1, hcap1⟩ := step_pres h hcap op
    show Inv (run (step st op) rest) ∧ (run (step st op) rest).capacity_ = st.capacity_
    obtain ⟨h2, hcap2⟩ := ih (step st op) h1 (by rw [hcap1]; exact hcap)
    exact ⟨h2, by rw [hcap2, hcap1]⟩

theorem get_fst {st : CacheState K V} {ids : List Nat} (hw : WF st ids) (k : K) :
    (ThreadSafeCache.get st k).1 = valueOf st k := by
  cases hk : klookup st.cache_ k with
  | none =>
    rw [get_miss hk, valueOf, hk]
    rfl
  | some i =>
    obtain ⟨h1, _⟩ := get_hit_pres hw hk
    rw [h1, valueOf, hk]
    rfl

theorem contains_eq_false_iff {st : CacheState K V} {k : K} :
    contains st k = false ↔ klookup st.cache_ k = none := by
  rw [contains]
  cases klookup st.cache_ k <;> simp

theorem contains_eq_true_iff {st : CacheState K V} {k : K} :
    contains st k = true ↔ ∃ i, klookup st.cache_ k = some i := by
  rw [contains]
  cases klookup st.cache_ k <;> simp

/-- C1: for every cache constructed with capacity `C > 0`, after any finite
single-threaded sequence of `get`/`put`/`remove`/`clear` (and query) calls,
the chain exists and the structural invariants hold: I1 (index size = chain
length), I2 (each index entry maps to a node occurring exactly once in the
chain with the matching stored key), I3 (acyclic chain, head without
`prev_`, tail without `next_`, both ends absent when empty), I4 (index size
bounded by the capacity, which is still `C`), and I5 (strictly decreasing
recency from head to tail, the head being the most recently touched live
key). -/
theorem c1_invariants_hold (A B : Type) [DecidableEq A] (C : Nat) (hC : 0 < C)
    (ops : List (Op A B)) :
    ∃ ids, ChainOf (run (init C) ops) ids ∧ I1 (run (init C) ops) ids ∧
      I2 (run (init C) ops) ids ∧ I3 (run (init C) ops) ids ∧
      (run (init C) ops).capacity_ = C ∧ I4 (run (init C) ops) ∧
      I5 (run (init C) ops) ids := by
  obtain ⟨⟨ids, ⟨w, hs⟩, hsz⟩, hcap⟩ := run_pres ops (init C) (init_Inv C) hC
  refine ⟨ids, ⟨w.head_eq, w.tail_eq, w.adj, w.live⟩, w.len_eq, ?_, ?_, hcap, hsz, ?_⟩
  · intro p hp
    obtain ⟨m1, m2⟩ := w.idx_mem p hp
    exact ⟨List.count_eq_one_of_mem w.nodup m1, m2⟩
  · refine ⟨w.nodup, w.head_prev, w.tail_next, ?_⟩
    intro he
    rw [w.head_eq, w.tail_eq, he]
    exact ⟨rfl, rfl⟩
  · refine ⟨hs.2, ?_⟩
    cases ids with
    | nil => trivial
    | cons a t =>
      show ∀ j ∈ a :: t, stampOf _ j ≤ stampOf _ a
      intro j hj
      rcases List.mem_cons.mp hj with rfl | hj2
      · exact le_refl _
      · exact le_of_lt ((List.pairwise_cons.mp hs.2).1 j hj2)

theorem c1_invariants_hold_witness :
    0 < 2 ∧ ∃ ids,
      ChainOf (run (init 2 : CacheState Nat Nat) [Op.putOp 5 7]) ids ∧
      I1 (run (init 2 : CacheState Nat Nat) [Op.putOp 5 7]) ids ∧
      I2 (run (init 2 : CacheState Nat Nat) [Op.putOp 5 7]) ids ∧
      I3 (run (init 2 : CacheState Nat Nat) [Op.putOp 5 7]) ids ∧
      (run (init 2 : CacheState Nat Nat) [Op.putOp 5 7]).capacity_ = 2 ∧
      I4 (run (init 2 : CacheState Nat Nat) [Op.putOp 5 7]) ∧
      I5 (run (init 2 : CacheState Nat Nat) [Op.putOp 5 7]) ids :=
  ⟨by decide, c1_invariants_hold Nat Nat 2 (by decide) [Op.putOp 5 7]⟩

/-- C2: inserting a fresh key into a full cache evicts exactly the current
tail: the tail's key disappears from the index, the new key is present, the
size stays at the capacity, and every other key is untouched; concretely,
with capacity 3, after `put(a,1)`, `put(b,2)`, `put(c,3)`, `get(a)`,
`put(d,4)` the key `b` is gone while `a`, `c`, `d` are present. -/
theorem c2_lru_eviction :
    (∀ (A B : Type) [DecidableEq A] (C : Nat), 0 < C →
      ∀ (ops : List (Op A B)) (k : A) (v : B),
        size (run (init C) ops) = C →
        contains (run (init C) ops) k = false →
        ∃ tk, tailKey (run (init C) ops) = some tk ∧
          contains (put (run (init C) ops) k v) tk = false ∧
          contains (put (run (init C) ops) k v) k = true ∧
          size (put (run (init C) ops) k v) = C ∧
          ∀ k2, k2 ≠ k → k2 ≠ tk →
            contains (put (run (init C) ops) k v) k2 =
              contains (run (init C) ops) k2) ∧
    (contains (put (run (init 3 : CacheState Nat Nat)
        [Op.putOp 0 1, Op.putOp 1 2, Op.putOp 2 3, Op.getOp 0]) 3 4) 1 = false ∧
      contains (put (run (init 3 : CacheState Nat Nat)
        [Op.putOp 0 1, Op.putOp 1 2, Op.putOp 2 3, Op.getOp 0]) 3 4) 0 = true ∧
      contains (put (run (init 3 : CacheState Nat Nat)
        [Op.putOp 0 1, Op.putOp 1 2, Op.putOp 2 3, Op.getOp 0]) 3 4) 2 = true ∧
      contains (put (run (init 3 : CacheState Nat Nat)
        [Op.putOp 0 1, Op.putOp 1 2, Op.putOp 2 3, Op.getOp 0]) 3 4) 3 = true) := by
  constructor
  · intro A B _ C hC ops k v hfull hnew
    obtain ⟨⟨ids, hw, hsz⟩, hcap⟩ := run_pres ops (init C) (init_Inv C) hC
    have hk : klookup (run (init C) ops).cache_ k = none := contains_eq_false_iff.mp hnew
    have hfull2 : (run (init C) ops).cache_.length = (run (init C) ops).capacity_ := by
      rw [hcap]
      exact hfull
    obtain ⟨ids2, _, _, _, _, hkl, _, _, _, hfullcase⟩ :=
      put_new_pres hw hsz (by rw [hcap]; exact hC) hk v
    obtain ⟨tk, htk, hnone, hframe, hlen⟩ := hfullcase hfull2
    refine ⟨tk, htk, ?_, ?_, ?_, ?_⟩
    · rw [contains, hnone]
      rfl
    · rw [contains, hkl]
      rfl
    · rw [size, hlen, hcap]
      rfl
    · intro k2 h2k h2tk
      rw [contains, contains, hframe k2 h2k h2tk]
  · exact ⟨by decide, by decide, by decide, by decide⟩

theorem c2_lru_eviction_witness :
    0 < 3 ∧
      size (run (init 3 : CacheState Nat Nat)
        [Op.putOp 0 1, Op.putOp 1 2, Op.putOp 2 3, Op.getOp 0]) = 3 ∧
      contains (run (init 3 : CacheState Nat Nat)
        [Op.putOp 0 1, Op.putOp 1 2, Op.putOp 2 3, Op.getOp 0]) 3 = false ∧
      (∃ tk, tailKey (run (init 3 : CacheState Nat Nat)
          [Op.putOp 0 1, Op.putOp 1 2, Op.putOp 2 3, Op.getOp 0]) = some tk ∧
        contains (put (run (init 3 : CacheState Nat Nat)
          [Op.putOp 0 1, Op.putOp 1 2, Op.putOp 2 3, Op.getOp 0]) 3 4) tk = false ∧
        contains (put (run (init 3 : CacheState Nat Nat)
          [Op.putOp 0 1, Op.putOp 1 2, Op.putOp 2 3, Op.getOp 0]) 3 4) 3 = true ∧
        size (put (run (init 3 : CacheState Nat Nat)
          [Op.putOp 0 1, Op.putOp 1 2, Op.putOp 2 3, Op.getOp 0]) 3 4) = 3 ∧
        ∀ k2, k2 ≠ 3 → k2 ≠ tk →
          contains (put (run (init 3 : CacheState Nat Nat)
            [Op.putOp 0 1, Op.putOp 1 2, Op.putOp 2 3, Op.getOp 0]) 3 4) k2 =
            contains (run (init 3 : CacheState Nat Nat)
              [Op.putOp 0 1, Op.putOp 1 2, Op.putOp 2 3, Op.getOp 0]) k2) :=
  ⟨by decide, by decide, by decide,
    c2_lru_eviction.1 Nat Nat 3 (by decide)
      [Op.putOp 0 1, Op.putOp 1 2, Op.putOp 2 3, Op.getOp 0] 3 4
      (by decide) (by decide)⟩

/-- C3: the claim says construction with capacity 0 is rejected (or yields a
documented no-op cache) and later operations do not misbehave.  The code
does neither: the constructor stores capacity 0 without any check, and the
first `put` then runs the eviction block on a single-node chain whose tail
has no predecessor, failing `assert(newtail)` and dereferencing a null
pointer (`crashed` in the model); the size ends up above the capacity. -/
theorem c3_zero_capacity_put_crashes :
    (init 0 : CacheState Nat Nat).crashed = false ∧
      (put (init 0 : CacheState Nat Nat) 0 0).crashed = true ∧
      size (put (init 0 : CacheState Nat Nat) 0 0) = 1 := by
  decide

/-- C4: `put` on an existing key overwrites the value, relinks the node at
the head, and never evicts: the size is unchanged and the new value is
read back; concretely with capacity 2, `put(a,1)`, `put(b,2)`, `put(a,10)`
leaves `size() == 2` and `get(a) == 10`. -/
theorem c4_update_does_not_evict :
    (∀ (A B : Type) [DecidableEq A] (C : Nat), 0 < C →
      ∀ (ops : List (Op A B)) (k : A) (v : B),
        contains (run (init C) ops) k = true →
        size (put (run (init C) ops) k v) = size (run (init C) ops) ∧
          (put (run (init C) ops) k v).head_ =
            klookup (run (init C) ops).cache_ k ∧
          valueOf (put (run (init C) ops) k v) k = some v ∧
          (ThreadSafeCache.get (put (run (init C) ops) k v) k).1 = some v) ∧
    (size (put (run (init 2 : CacheState Nat Nat) [Op.putOp 0 1, Op.putOp 1 2]) 0 10) = 2 ∧
      (ThreadSafeCache.get (put (run (init 2 : CacheState Nat Nat)
        [Op.putOp 0 1, Op.putOp 1 2]) 0 10) 0).1 = some 10) := by
  constructor
  · intro A B _ C hC ops k v hmem
    obtain ⟨⟨ids, hw, hsz⟩, hcap⟩ := run_pres ops (init C) (init_Inv C) hC
    obtain ⟨i, hki⟩ := contains_eq_true_iff.mp hmem
    obtain ⟨l₁, l₂, hsplit, hWF, hcache, hcap2, hhd, hval⟩ :=
      put_exists_pres hw hsz hki v
    refine ⟨by rw [size, size, hcache], by rw [hhd, hki], ?_, ?_⟩
    · rw [valueOf, hcache, hki]
      simpa using hval
    · rw [get_fst hWF k, valueOf, hcache, hki]
      simpa using hval
  · exact ⟨by decide, by decide⟩

theorem c4_update_does_not_evict_witness :
    0 < 2 ∧
      contains (run (init 2 : CacheState Nat Nat) [Op.putOp 0 1, Op.putOp 1 2]) 0 = true ∧
      (size (put (run (init 2 : CacheState Nat Nat) [Op.putOp 0 1, Op.putOp 1 2]) 0 10) =
          size (run (init 2 : CacheState Nat Nat) [Op.putOp 0 1, Op.putOp 1 2]) ∧
        (put (run (init 2 : CacheState Nat Nat) [Op.putOp 0 1, Op.putOp 1 2]) 0 10).head_ =
          klookup (run (init 2 : CacheState Nat Nat) [Op.putOp 0 1, Op.putOp 1 2]).cache_ 0 ∧
        valueOf (put (run (init 2 : CacheState Nat Nat)
          [Op.putOp 0 1, Op.putOp 1 2]) 0 10) 0 = some 10 ∧
        (ThreadSafeCache.get (put (run (init 2 : CacheState Nat Nat)
          [Op.putOp 0 1, Op.putOp 1 2]) 0 10) 0).1 = some 10) :=
  ⟨by decide, by decide,
    c4_update_does_not_evict.1 Nat Nat 2 (by decide) [Op.putOp 0 1, Op.putOp 1 2] 0 10
      (by decide)⟩

/-- C5: `get` on an absent key returns empty and leaves the state untouched
(in particular any `get` on a freshly constructed cache misses); `get` on a
present key returns the stored value and relinks that key's node at the
head, without changing the index. -/
theorem c5_get_semantics :
    (∀ (A B : Type) [DecidableEq A] (C : Nat), 0 < C →
      ∀ (ops : List (Op A B)) (k : A),
        (contains (run (init C) ops) k = false →
          ThreadSafeCache.get (run (init C) ops) k = (none, run (init C) ops)) ∧
        (contains (run (init C) ops) k = true →
          (ThreadSafeCache.get (run (init C) ops) k).1 = valueOf (run (init C) ops) k ∧
            (ThreadSafeCache.get (run (init C) ops) k).2.head_ =
              klookup (run (init C) ops).cache_ k ∧
            (ThreadSafeCache.get (run (init C) ops) k).2.cache_ =
              (run (init C) ops).cache_)) ∧
    (∀ (x C : Nat), ThreadSafeCache.get (init C : CacheState Nat Nat) x =
      (none, init C)) := by
  constructor
  · intro A B _ C hC ops k
    obtain ⟨⟨ids, hw, hsz⟩, _⟩ := run_pres ops (init C) (init_Inv C) hC
    constructor
    · intro hmiss
      exact get_miss (contains_eq_false_iff.mp hmiss)
    · intro hmem
      obtain ⟨i, hki⟩ := contains_eq_true_iff.mp hmem
      obtain ⟨h1, l₁, l₂, hsplit, hWF, hcache, hhd, _, _, _⟩ := get_hit_pres hw hki
      refine ⟨?_, by rw [hhd, hki], hcache⟩
      rw [h1, valueOf, hki]
      rfl
  · intro x C
    exact get_miss rfl

theorem c5_get_semantics_witness :
    0 < 1 ∧
      ((contains (run (init 1 : CacheState Nat Nat) [Op.putOp 4 9]) 7 = false →
        ThreadSafeCache.get (run (init 1 : CacheState Nat Nat) [Op.putOp 4 9]) 7 =
          (none, run (init 1 : CacheState Nat Nat) [Op.putOp 4 9])) ∧
      (contains (run (init 1 : CacheState Nat Nat) [Op.putOp 4 9]) 7 = true →
        (ThreadSafeCache.get (run (init 1 : CacheState Nat Nat) [Op.putOp 4 9]) 7).1 =
            valueOf (run (init 1 : CacheState Nat Nat) [Op.putOp 4 9]) 7 ∧
          (ThreadSafeCache.get (run (init 1 : CacheState Nat Nat) [Op.putOp 4 9]) 7).2.head_ =
            klookup (run (init 1 : CacheState Nat Nat) [Op.putOp 4 9]).cache_ 7 ∧
          (ThreadSafeCache.get (run (init 1 : CacheState Nat Nat) [Op.putOp 4 9]) 7).2.cache_ =
            (run (init 1 : CacheState Nat Nat) [Op.putOp 4 9]).cache_)) :=
  ⟨by decide, c5_get_semantics.1 Nat Nat 1 (by decide) [Op.putOp 4 9] 7⟩

/-- C6: `remove` returns true exactly when the key is present; a hit erases
the index entry and unlinks the node (the key is gone, the size drops by
one, all other keys are untouched); a miss returns false with no side
effect; concretely after `put(a,1)`: `remove(a) = true`, then `get(a)` is
empty and a second `remove(a) = false`. -/
theorem c6_remove_semantics :
    (∀ (A B : Type) [DecidableEq A] (C : Nat), 0 < C →
      ∀ (ops : List (Op A B)) (k : A),
        ((remove (run (init C) ops) k).1 = contains (run (init C) ops) k) ∧
        (contains (run (init C) ops) k = false →
          remove (run (init C) ops) k = (false, run (init C) ops)) ∧
        (contains (run (init C) ops) k = true →
          contains (remove (run (init C) ops) k).2 k = false ∧
            size (remove (run (init C) ops) k).2 + 1 = size (run (init C) ops) ∧
            ∀ k2, k2 ≠ k →
              contains (remove (run (init C) ops) k).2 k2 =
                contains (run (init C) ops) k2)) ∧
    ((remove (run (init 3 : CacheState Nat Nat) [Op.putOp 0 1]) 0).1 = true ∧
      (ThreadSafeCache.get (remove (run (init 3 : CacheState Nat Nat)
        [Op.putOp 0 1]) 0).2 0).1 = none ∧
      (remove (remove (run (init 3 : CacheState Nat Nat)
        [Op.putOp 0 1]) 0).2 0).1 = false) := by
  constructor
  · intro A B _ C hC ops k
    obtain ⟨⟨ids, hw, hsz⟩, _⟩ := run_pres ops (init C) (init_Inv C) hC
    refine ⟨?_, ?_, ?_⟩
    · cases hk : klookup (run (init C) ops).cache_ k with
      | none =>
        rw [remove_miss hk, contains, hk]
        rfl
      | some i =>
        obtain ⟨himem, _⟩ := hw.1.lookup_node hk
        obtain ⟨l₁, l₂, hsplit⟩ := List.append_of_mem himem
        obtain ⟨h1, _⟩ := remove_hit_pres hw.1 hk hsplit
        rw [h1, contains, hk]
        rfl
    · intro hmiss
      exact remove_miss (contains_eq_false_iff.mp hmiss)
    · intro hmem
      obtain ⟨i, hki⟩ := contains_eq_true_iff.mp hmem
      obtain ⟨himem, _⟩ := hw.1.lookup_node hki
      obtain ⟨l₁, l₂, hsplit⟩ := List.append_of_mem himem
      obtain ⟨_, hWFS, _, hcache, _, _, _, _⟩ := remove_hit_pres hw.1 hki hsplit
      refine ⟨?_, ?_, ?_⟩
      · rw [contains, hcache, klookup_kerase_self hw.1.keys_nodup]
        rfl
      · rw [size, size, hcache]
        exact kerase_length (by rw [hki]; rfl)
      · intro k2 h2k
        rw [contains, contains, hcache, klookup_kerase_ne h2k]
  · exact ⟨by decide, by decide, by decide⟩

theorem c6_remove_semantics_witness :
    0 < 3 ∧
      (((remove (run (init 3 : CacheState Nat Nat) [Op.putOp 0 1]) 5).1 =
          contains (run (init 3 : CacheState Nat Nat) [Op.putOp 0 1]) 5) ∧
        (contains (run (init 3 : CacheState Nat Nat) [Op.putOp 0 1]) 5 = false →
          remove (run (init 3 : CacheState Nat Nat) [Op.putOp 0 1]) 5 =
            (false, run (init 3 : CacheState Nat Nat) [Op.putOp 0 1])) ∧
        (contains (run (init 3 : CacheState Nat Nat) [Op.putOp 0 1]) 5 = true →
          contains (remove (run (init 3 : CacheState Nat Nat) [Op.putOp 0 1]) 5).2 5 = false ∧
            size (remove (run (init 3 : CacheState Nat Nat) [Op.putOp 0 1]) 5).2 + 1 =
              size (run (init 3 : CacheState Nat Nat) [Op.putOp 0 1]) ∧
            ∀ k2, k2 ≠ 5 →
              contains (remove (run (init 3 : CacheState Nat Nat) [Op.putOp 0 1]) 5).2 k2 =
                contains (run (init 3 : CacheState Nat Nat) [Op.putOp 0 1]) k2)) :=
  ⟨by decide, c6_remove_semantics.1 Nat Nat 3 (by decide) [Op.putOp 0 1] 5⟩

/-- C7: after `clear()` the cache is fully reset: size 0, both chain ends
absent, every node of the previous chain unlinked, and `get` misses on
every key (in particular every previously inserted one). -/
theorem c7_clear_resets (A B : Type) [DecidableEq A] (C : Nat) (hC : 0 < C)
    (ops : List (Op A B)) :
    size (clear (run (init C) ops)) = 0 ∧
      (clear (run (init C) ops)).head_ = none ∧
      (clear (run (init C) ops)).tail_ = none ∧
      (∀ k, ThreadSafeCache.get (clear (run (init C) ops)) k =
        (none, clear (run (init C) ops))) ∧
      ∃ ids, ChainOf (run (init C) ops) ids ∧
        ∀ i ∈ ids, prevOf (clear (run (init C) ops)) i = none ∧
          nextOf (clear (run (init C) ops)) i = none := by
  obtain ⟨⟨ids, hw, hsz⟩, _⟩ := run_pres ops (init C) (init_Inv C) hC
  obtain ⟨cWFS, _, hca, hhd, htl, _, hunlink⟩ := clear_pres hw.1
  refine ⟨by rw [size, hca]; rfl, hhd, htl, ?_, ids,
    ⟨hw.1.head_eq, hw.1.tail_eq, hw.1.adj, hw.1.live⟩, hunlink⟩
  intro k
  exact get_miss (by rw [hca]; rfl)

theorem c7_clear_resets_witness :
    0 < 2 ∧
      (size (clear (run (init 2 : CacheState Nat Nat) [Op.putOp 1 1, Op.putOp 2 2])) = 0 ∧
        (clear (run (init 2 : CacheState Nat Nat) [Op.putOp 1 1, Op.putOp 2 2])).head_ = none ∧
        (clear (run (init 2 : CacheState Nat Nat) [Op.putOp 1 1, Op.putOp 2 2])).tail_ = none ∧
        (∀ k, ThreadSafeCache.get (clear (run (init 2 : CacheState Nat Nat)
          [Op.putOp 1 1, Op.putOp 2 2])) k =
          (none, clear (run (init 2 : CacheState Nat Nat) [Op.putOp 1 1, Op.putOp 2 2]))) ∧
        ∃ ids, ChainOf (run (init 2 : CacheState Nat Nat) [Op.putOp 1 1, Op.putOp 2 2]) ids ∧
          ∀ i ∈ ids, prevOf (clear (run (init 2 : CacheState Nat Nat)
              [Op.putOp 1 1, Op.putOp 2 2])) i = none ∧
            nextOf (clear (run (init 2 : CacheState Nat Nat)
              [Op.putOp 1 1, Op.putOp 2 2])) i = none) :=
  ⟨by decide, c7_clear_resets Nat Nat 2 (by decide) [Op.putOp 1 1, Op.putOp 2 2]⟩

/-- C9: `contains` and `size` are pure queries: running them changes
nothing about the state, `size` counts exactly the chain nodes, and
`contains` answers exactly whether some chain node stores the key. -/
theorem c9_queries_pure (A B : Type) [DecidableEq A] (C : Nat) (hC : 0 < C)
    (ops : List (Op A B)) (k : A) :
    step (run (init C) ops) (Op.containsOp k) = run (init C) ops ∧
      step (run (init C) ops) Op.sizeOp = run (init C) ops ∧
      ∃ ids, ChainOf (run (init C) ops) ids ∧
        size (run (init C) ops) = ids.length ∧
        (contains (run (init C) ops) k = true ↔
          ∃ i ∈ ids, keyOf (run (init C) ops) i = some k) := by
  obtain ⟨⟨ids, hw, hsz⟩, _⟩ := run_pres ops (init C) (init_Inv C) hC
  refine ⟨rfl, rfl, ids, ⟨hw.1.head_eq, hw.1.tail_eq, hw.1.adj, hw.1.live⟩,
    hw.1.len_eq, ?_, ?_⟩
  · intro hmem
    obtain ⟨i, hki⟩ := contains_eq_true_iff.mp hmem
    obtain ⟨m1, m2⟩ := hw.1.lookup_node hki
    exact ⟨i, m1, m2⟩
  · rintro ⟨i, hi, hkey⟩
    have hb := hw.1.backref i hi
    rw [hkey] at hb
    simp only [Option.bind_eq_bind, Option.some_bind] at hb
    rw [contains, hb]
    rfl

theorem c9_queries_pure_witness :
    0 < 2 ∧
      (step (run (init 2 : CacheState Nat Nat) [Op.putOp 8 3]) (Op.containsOp 8) =
          run (init 2 : CacheState Nat Nat) [Op.putOp 8 3] ∧
        step (run (init 2 : CacheState Nat Nat) [Op.putOp 8 3]) Op.sizeOp =
          run (init 2 : CacheState Nat Nat) [Op.putOp 8 3] ∧
        ∃ ids, ChainOf (run (init 2 : CacheState Nat Nat) [Op.putOp 8 3]) ids ∧
          size (run (init 2 : CacheState Nat Nat) [Op.putOp 8 3]) = ids.length ∧
          (contains (run (init 2 : CacheState Nat Nat) [Op.putOp 8 3]) 8 = true ↔
            ∃ i ∈ ids, keyOf (run (init 2 : CacheState Nat Nat) [Op.putOp 8 3]) i =
              some 8)) :=
  ⟨by decide, c9_queries_pure Nat Nat 2 (by decide) [Op.putOp 8 3] 8⟩

/-- C10: on any reachable cache with positive capacity, a `put` immediately
followed by a `get` of the same key returns the value just written: the
fresh node sits at the head, so it is never the eviction victim of its own
`put`. -/
theorem c10_put_then_get (A B : Type) [DecidableEq A] (C : Nat) (hC : 0 < C)
    (ops : List (Op A B)) (k : A) (v : B) :
    (ThreadSafeCache.get (put (run (init C) ops) k v) k).1 = some v := by
  obtain ⟨⟨ids, hw, hsz⟩, hcap⟩ := run_pres ops (init C) (init_Inv C) hC
  cases hk : klookup (run (init C) ops).cache_ k with
  | none =>
    obtain ⟨ids2, hWF, _, _, _, hkl, hval, _, _, _⟩ :=
      put_new_pres hw hsz (by rw [hcap]; exact hC) hk v
    rw [get_fst hWF k, valueOf, hkl]
    simpa using hval
  | some i =>
    obtain ⟨l₁, l₂, hsplit, hWF, hcache, _, _, hval⟩ := put_exists_pres hw hsz hk v
    rw [get_fst hWF k, valueOf, hcache, hk]
    simpa using hval

theorem c10_put_then_get_witness :
    0 < 1 ∧
      (ThreadSafeCache.get (put (run (init 1 : CacheState Nat Nat) [Op.putOp 0 5]) 6 7) 6).1 =
        some 7 :=
  ⟨by decide, c10_put_then_get Nat Nat 1 (by decide) [Op.putOp 0 5] 6 7⟩

end ThreadSafeCache

namespace ThreadSafeCache

-- sanity checks on concrete runs (spec §8 scenarios)
example :
    let st := put (put (put (init 3 : CacheState Nat Nat) 0 1) 1 2) 2 3
    let st := (get st 0).2
    let st := put st 3 4
    contains st 1 = false ∧ contains st 0 = true ∧ contains st 2 = true ∧
      contains st 3 = true ∧ size st = 3 := by decide

example :
    let st := put (put (put (init 2 : CacheState Nat Nat) 0 1) 1 2) 0 10
    size st = 2 ∧ (get st 0).1 = some 10 := by decide

example : (put (init 0 : CacheState Nat Nat) 0 0).crashed = true := by decide

example :
    let st := put (init 3 : CacheState Nat Nat) 0 1
    (remove st 0).1 = true ∧ (get (remove st 0).2 0).1 = none ∧
      (remove (remove st 0).2 0).1 = false := by decide

example :
    let st := put (put (init 3 : CacheState Nat Nat) 0 1) 1 2
    size (clear st) = 0 ∧ (get (clear st) 0).1 = none ∧ (get (clear st) 1).1 = none := by
  decide

end ThreadSafeCache
